import Mathlib

/-!
Verification development for a browser-based translation-management tool.

The development shallowly embeds the data model and the operations of the
repository: the key-path addressing and flattening utilities (the
`translationService` module, whose source is not part of the snapshot and is
therefore modelled from the specification), the application-state handlers
(`App`), the file importer (`FileUploader.processFiles`), the AI service
(`aiService`: `analyzeTranslations`, `bulkTranslateKeys`), the
reference-language detection heuristics, and the group-editor form.

Strings are compared and transformed through explicit character-list
functions so that every definition evaluates by kernel reduction.  String
order is code-point lexicographic, the standard non-locale comparison (it
agrees with the JavaScript default sort on the ASCII names used throughout
the repository).
-/

/-- Character-list test: does `pat` occur at the start of `l`? -/
def listStartsWith : List Char → List Char → Bool
  | [], _ => true
  | _ :: _, [] => false
  | p :: ps, c :: cs => p == c && listStartsWith ps cs

/-- Character-list test: does `pat` occur somewhere inside `l`?
Embeds JavaScript `String.prototype.includes`. -/
def listContainsSub (pat : List Char) : List Char → Bool
  | [] => listStartsWith pat []
  | c :: cs => listStartsWith pat (c :: cs) || listContainsSub pat cs

/-- `containsStr s pat`: JavaScript `s.includes(pat)`. -/
def containsStr (s pat : String) : Bool := listContainsSub pat.data s.data

/-- JavaScript `s.toLowerCase()` (character-wise lowering). -/
def lowerStr (s : String) : String := ⟨s.data.map Char.toLower⟩

/-- JavaScript `s.endsWith(suf)`. -/
def strEndsWith (s suf : String) : Bool :=
  listStartsWith suf.data.reverse s.data.reverse

/-- Drop the first occurrence of `pat` from `l` (replacement by the empty
string); helper for JavaScript `s.replace(pat, '')`. -/
def removeFirstSub (pat : List Char) : List Char → List Char
  | [] => []
  | c :: cs =>
      if listStartsWith pat (c :: cs) then (c :: cs).drop pat.length
      else c :: removeFirstSub pat cs

/-- JavaScript `s.replace(pat, '')`: only the first occurrence is removed. -/
def replaceFirstStr (s pat : String) : String := ⟨removeFirstSub pat.data s.data⟩

/-- ASCII whitespace test for the trim model. -/
def isWsChar (c : Char) : Bool := c == ' ' || c == '\t' || c == '\n' || c == '\r'

/-- JavaScript `s.trim()` (restricted to ASCII whitespace, which covers every
name appearing in the repository). -/
def strTrim (s : String) : String :=
  ⟨(((s.data.dropWhile isWsChar).reverse.dropWhile isWsChar).reverse : List Char)⟩

/-- Strict code-point lexicographic order on character lists. -/
def charListLtB : List Char → List Char → Bool
  | [], [] => false
  | [], _ :: _ => true
  | _ :: _, [] => false
  | a :: as, b :: bs =>
      if a.toNat < b.toNat then true
      else if b.toNat < a.toNat then false
      else charListLtB as bs

/-- Strict standard (non-locale) string comparison. -/
def strLtB (a b : String) : Bool := charListLtB a.data b.data

/-- Reflexive standard (non-locale) string comparison, the order used by the
JavaScript default `Array.prototype.sort` on the repository's key paths. -/
def strLeB (a b : String) : Bool := !(strLtB b a)

/-- The comparison as a proposition, for sortedness statements. -/
def strLe (a b : String) : Prop := strLeB a b = true

instance : DecidableRel strLe := fun x y =>
  inferInstanceAs (Decidable (strLeB x y = true))

/-- `Array.from(new Set(l))`: deduplication keeping the first occurrence, in
insertion order, as a JavaScript `Set` does. -/
def jsSetList : List String → List String
  | [] => []
  | x :: xs => x :: (jsSetList xs).filter (fun y => !(y == x))

/-- JavaScript `array.sort()` on strings: sort ascending by the standard
non-locale comparison. -/
def strSort (l : List String) : List String := List.insertionSort strLe l

/-- JSON values as stored in a translation file: the root of a translation
file is a mapping; nested values are mappings, arrays or scalar leaves. -/
inductive Json where
  | null : Json
  | bool (b : Bool) : Json
  | num (n : Int) : Json
  | str (s : String) : Json
  | arr (elems : List Json) : Json
  | obj (fields : List (String × Json)) : Json

/-- First field of an object with the given name (JavaScript property
lookup; object keys are unique in any JavaScript value). -/
def lookupField : List (String × Json) → String → Option Json
  | [], _ => none
  | (k', v) :: fs, k => if k' = k then some v else lookupField fs k

/-- Replace the value of an existing field in place, or append a new field:
the behaviour of `{ ...obj, [k]: v }`. -/
def upsert : List (String × Json) → String → Json → List (String × Json)
  | [], k, v => [(k, v)]
  | (k', v') :: fs, k, v =>
      if k' = k then (k, v) :: fs else (k', v') :: upsert fs k v

/-- Walk a tree along a list of path segments; `none` as soon as a segment is
missing or the current node is not a mapping. -/
def getSegs : Json → List String → Option Json
  | v, [] => some v
  | Json.obj fs, k :: rest =>
      match lookupField fs k with
      | some v => getSegs v rest
      | none => none
  | _, _ :: _ => none

/-- Write a value along a list of path segments, copying the spine and
creating (or overwriting with) fresh empty mappings for every intermediate
segment whose current value is missing or is not a mapping. -/
def setSegs (tree : Json) : List String → Json → Json
  | [], _ => tree
  | [k], v =>
      match tree with
      | Json.obj fs => Json.obj (upsert fs k v)
      | _ => Json.obj [(k, v)]
  | k :: k' :: rest, v =>
      match tree with
      | Json.obj fs =>
          let child :=
            match lookupField fs k with
            | some (Json.obj gs) => Json.obj gs
            | _ => Json.obj []
          Json.obj (upsert fs k (setSegs child (k' :: rest) v))
      | _ => Json.obj [(k, setSegs (Json.obj []) (k' :: rest) v)]

/-- JavaScript `path.split('.')` on the character list: `"" ↦ [""]`,
adjacent dots produce empty segments. -/
def splitOnDot : List Char → List (List Char)
  | [] => [[]]
  | c :: rest =>
      if c = '.' then [] :: splitOnDot rest
      else
        match splitOnDot rest with
        | [] => [[c]]
        | g :: gs => (c :: g) :: gs

/-- JavaScript `path.split('.')` at the string level. -/
def splitPath (p : String) : List String := (splitOnDot p.data).map String.mk

/-- Join path segments with dots (how the flattening utility builds the
dotted path while descending). -/
def joinSegs : List String → String
  | [] => ""
  | [s] => s
  | s :: s' :: rest => s ++ "." ++ joinSegs (s' :: rest)

/-- Modelled from the spec: the read half of the key-path addressing utility
of the missing `translationService` module.  `getValueByPath(tree, path)`
splits the path on `.` and walks the tree segment by segment, returning
`undefined` (here `none`) as soon as a segment is absent or the current node
is not a mapping. -/
def getValueByPath (tree : Json) (path : String) : Option Json :=
  getSegs tree (splitPath path)

/-- Modelled from the spec: the write half of the key-path addressing
utility of the missing `translationService` module (total core).
`setValueByPath(tree, path, value)` returns a new tree in which the location
addressed by `path` holds `value`; every intermediate segment that is absent
or not a mapping is (over)written with a fresh empty mapping. -/
def setValueByPathD (tree : Json) (path : String) (v : Json) : Json :=
  setSegs tree (splitPath path) v

/-- Modelled from the spec: `setValueByPath` with the documented edge case —
an empty path fails with `InvalidPathError` instead of writing. -/
def setValueByPath (tree : Json) (path : String) (v : Json) :
    Except String Json :=
  if path = "" then Except.error "InvalidPathError"
  else Except.ok (setValueByPathD tree path v)

mutual

/-- Segment lists of the addressable leaves of a tree: mappings are
descended, an empty array is skipped, every other node is a leaf. -/
def leafSegsJ : Json → List (List String)
  | Json.obj fs => leafSegsFields fs
  | Json.arr [] => []
  | Json.arr (_ :: _) => [[]]
  | Json.null => [[]]
  | Json.bool _ => [[]]
  | Json.num _ => [[]]
  | Json.str _ => [[]]

/-- Leaf segment lists contributed by the fields of a mapping, depth first
in field order. -/
def leafSegsFields : List (String × Json) → List (List String)
  | [] => []
  | (k, v) :: rest => (leafSegsJ v).map (fun segs => k :: segs) ++ leafSegsFields rest

end

/-- Modelled from the spec: `flattenObjectKeys` of the missing
`translationService` module.  It returns the dotted paths of all leaves of a
tree (depth first, joining segments with `.`); a non-object root contributes
zero keys. -/
def flattenObjectKeys (tree : Json) : List String :=
  match tree with
  | Json.obj _ => (leafSegsJ tree).map joinSegs
  | _ => []

/-- Bool-valued duplicate-freedom of a list of names. -/
def nodupNames : List String → Bool
  | [] => true
  | x :: xs => !(xs.contains x) && nodupNames xs

mutual

/-- A tree is clean when every mapping in it has duplicate-free keys and
every key is nonempty and contains no `.` — exactly the trees on which the
dotted-path encoding of a location is unambiguous (JavaScript objects always
have duplicate-free keys; the nonempty/dot-free condition is what the dotted
key-path convention presumes). -/
def cleanJson : Json → Bool
  | Json.obj fs => nodupNames (fs.map Prod.fst) && cleanFields fs
  | Json.arr es => cleanElems es
  | Json.null => true
  | Json.bool _ => true
  | Json.num _ => true
  | Json.str _ => true

/-- Cleanliness of a field list. -/
def cleanFields : List (String × Json) → Bool
  | [] => true
  | (k, v) :: rest =>
      !(k == "") && !(containsStr k ".") && cleanJson v && cleanFields rest

/-- Cleanliness of array elements. -/
def cleanElems : List Json → Bool
  | [] => true
  | e :: es => cleanJson e && cleanElems es

end

/-- One uploaded language file: its language identifier and its JSON tree. -/
structure TranslationFile where
  name : String
  data : Json

/-- The key universe computed at import: flatten every file, union through a
set, sort ascending with the standard non-locale comparison (the pipeline of
`handleFilesUpload` in `App`). -/
def unionKeys (files : List TranslationFile) : List String :=
  strSort (jsSetList (files.flatMap (fun f => flattenObjectKeys f.data)))

/-- A user-curated group of key paths (`types.ts`). -/
structure TranslationGroup where
  id : String
  name : String
  context : String
  keys : List String
  referenceKeys : List String
  deriving DecidableEq

/-- Generic association-list lookup (JavaScript property read). -/
def lookupA {α : Type} : List (String × α) → String → Option α
  | [], _ => none
  | (k', v) :: fs, k => if k' = k then some v else lookupA fs k

/-- Generic association-list upsert (`{ ...m, [k]: v }`). -/
def upsertA {α : Type} : List (String × α) → String → α → List (String × α)
  | [], k, v => [(k, v)]
  | (k', v') :: fs, k, v =>
      if k' = k then (k, v) :: fs else (k', v') :: upsertA fs k v

/-- `TranslationHistory`: key path → language name → approved value. -/
abbrev TranslationHistory : Type := List (String × List (String × Json))

/-- `newHistory[key] = { ...(newHistory[key] || {}), [lang]: newValue }`. -/
def histUpdate (h : TranslationHistory) (key lang : String) (v : Json) :
    TranslationHistory :=
  upsertA h key (upsertA ((lookupA h key).getD []) lang v)

/-- The single in-memory project blob of `App`. -/
structure ProjectData where
  translationFiles : List TranslationFile
  contexts : Json
  translationHistory : TranslationHistory
  translationGroups : List TranslationGroup
  globalContext : String
  lastUpdated : String

/-- What an updater passed to `updateProjectData` may return:
`Omit<Partial<ProjectData>, 'lastUpdated'>` — any subset of the fields
except `lastUpdated`. -/
structure ProjectPatch where
  translationFiles : Option (List TranslationFile) := none
  contexts : Option Json := none
  translationHistory : Option TranslationHistory := none
  translationGroups : Option (List TranslationGroup) := none
  globalContext : Option String := none

/-- `{ ...prev, ...updates }`: fields present in the patch replace the
previous values, all others are kept. -/
def applyPatch (p : ProjectData) (u : ProjectPatch) : ProjectData :=
  { translationFiles := u.translationFiles.getD p.translationFiles
    contexts := u.contexts.getD p.contexts
    translationHistory := u.translationHistory.getD p.translationHistory
    translationGroups := u.translationGroups.getD p.translationGroups
    globalContext := u.globalContext.getD p.globalContext
    lastUpdated := p.lastUpdated }

/-- `updateProjectData` of `App`:
`{ ...prev, ...updater(prev), lastUpdated: new Date().toISOString() }`, with
the clock passed explicitly as `now`. -/
def updateProjectData (now : String) (updater : ProjectData → ProjectPatch)
    (p : ProjectData) : ProjectData :=
  { applyPatch p (updater p) with lastUpdated := now }

/-- `handleUpdateContext` of `App`: when the stored context already equals
the new one the updater returns the empty patch, otherwise it writes the new
context through `setValueByPath`. -/
def handleUpdateContext (now key newContext : String) (p : ProjectData) :
    ProjectData :=
  updateProjectData now
    (fun prev =>
      match getValueByPath prev.contexts key with
      | some (Json.str s) =>
          if s = newContext then {}
          else { contexts := some (setValueByPathD prev.contexts key (Json.str newContext)) }
      | _ => { contexts := some (setValueByPathD prev.contexts key (Json.str newContext)) })
    p

/-- The `App` state that the claims concern: the loaded project and the key
universe kept in the separate `allKeys` state hook. -/
structure AppState where
  projectData : Option ProjectData
  allKeys : List String

/-- The typed upload payload that `handleFilesUpload` receives (the importer
casts its parsed JSON blobs to these types without runtime conversion). -/
structure UploadData where
  translationFiles : List TranslationFile
  contexts : Json
  history : TranslationHistory
  groups : List TranslationGroup
  globalContext : String

/-- `handleFilesUpload` of `App`: replaces the project blob and fully
recomputes `allKeys` from the uploaded files (empty upload clears it). -/
def handleFilesUpload (now : String) (res : UploadData) (_st : AppState) :
    AppState :=
  { projectData := some
      { translationFiles := res.translationFiles
        contexts := res.contexts
        translationHistory := res.history
        translationGroups := res.groups
        globalContext := res.globalContext
        lastUpdated := now }
    allKeys := if res.translationFiles.isEmpty then [] else unionKeys res.translationFiles }

/-- `handleUpdateValueAndHistory` of `App`: writes one value into one file
through `setValueByPath`, records it in the history, and touches nothing
else — in particular `allKeys` is left as it was. -/
def handleUpdateValueAndHistory (now fileName key : String) (newValue : Json)
    (st : AppState) : AppState :=
  match st.projectData with
  | none => st
  | some p =>
      { st with
        projectData := some (updateProjectData now
          (fun prev =>
            { translationFiles := some (prev.translationFiles.map (fun f =>
                if f.name = fileName then
                  { f with data := setValueByPathD f.data key newValue }
                else f))
              translationHistory := some (histUpdate prev.translationHistory key fileName newValue) })
          p) }

/-- History bookkeeping of `handleSaveBulkTranslations`: only languages that
match a loaded file are recorded. -/
def bulkHistUpdate (files : List TranslationFile) (h : TranslationHistory)
    (updated : List (String × List (String × String))) : TranslationHistory :=
  updated.foldl
    (fun acc langUps =>
      if files.any (fun f => f.name == langUps.1) then
        langUps.2.foldl (fun a kv => histUpdate a kv.1 langUps.1 (Json.str kv.2)) acc
      else acc)
    h

/-- `handleSaveBulkTranslations` of `App`: folds every per-language edit map
into the matching file through `setValueByPath` and updates the history;
`allKeys` is left as it was. -/
def handleSaveBulkTranslations (now : String)
    (updated : List (String × List (String × String))) (st : AppState) :
    AppState :=
  match st.projectData with
  | none => st
  | some p =>
      { st with
        projectData := some (updateProjectData now
          (fun prev =>
            { translationFiles := some (prev.translationFiles.map (fun f =>
                match lookupA updated f.name with
                | some ups =>
                    { f with data := ups.foldl (fun d kv => setValueByPathD d kv.1 (Json.str kv.2)) f.data }
                | none => f))
              translationHistory := some (bulkHistUpdate prev.translationFiles prev.translationHistory updated) })
          p) }

/-- Result record of the importer (`FileUploader.processFiles`); the sidecar
blobs are kept as raw parsed JSON, as the importer does not validate them. -/
structure UploadResult where
  translationFiles : List TranslationFile
  contexts : Json
  history : Json
  groups : Json
  globalContext : String
  referenceKeys : Json

/-- `defaultResult` of `processFiles`. -/
def defaultUploadResult : UploadResult :=
  { translationFiles := []
    contexts := Json.obj []
    history := Json.obj []
    groups := Json.arr []
    globalContext := ""
    referenceKeys := Json.arr [] }

/-- The per-file loop of `processFiles`:  each name is dispatched to its
branch; a parse failure in any branch other than `global_context.txt`
returns `defaultResult` immediately; after the loop an empty translation
list also yields `defaultResult`. -/
def processLoop (parse : String → Option Json) :
    List (String × String) → UploadResult → UploadResult
  | [], acc => if acc.translationFiles.isEmpty then defaultUploadResult else acc
  | (name, text) :: rest, acc =>
      if name = "context.json" then
        match parse text with
        | some j => processLoop parse rest { acc with contexts := j }
        | none => defaultUploadResult
      else if name = "history.json" then
        match parse text with
        | some j => processLoop parse rest { acc with history := j }
        | none => defaultUploadResult
      else if name = "groups.json" then
        match parse text with
        | some j => processLoop parse rest { acc with groups := j }
        | none => defaultUploadResult
      else if name = "global_context.txt" then
        processLoop parse rest { acc with globalContext := text }
      else if name = "reference_keys.json" then
        match parse text with
        | some j => processLoop parse rest { acc with referenceKeys := j }
        | none => defaultUploadResult
      else if strEndsWith name ".json" then
        match parse text with
        | some j =>
            processLoop parse rest
              { acc with translationFiles :=
                  acc.translationFiles ++ [⟨replaceFirstStr name ".json", j⟩] }
        | none => defaultUploadResult
      else processLoop parse rest acc

/-- `processFiles` of `FileUploader` on an already-expanded batch (the
single-ZIP branch expands the archive into the same shape of list before
this loop runs), with JSON parsing supplied as an oracle. -/
def processFiles (parse : String → Option Json)
    (files : List (String × String)) : UploadResult :=
  processLoop parse files defaultUploadResult

/-- Does a file name denote a per-language translation file for the
importer: it ends in `.json` and is none of the reserved sidecar names. -/
def isTranslationName (name : String) : Bool :=
  strEndsWith name ".json" &&
  !(name == "context.json") && !(name == "history.json") &&
  !(name == "groups.json") && !(name == "reference_keys.json")

/-- One entry of the bulk-translation request payload
(`keysToTranslate` in `aiService.bulkTranslateKeys`). -/
structure BulkKeyItem where
  key : String
  pl : String
  en : String
  context : String
  currentValue : String
  deriving DecidableEq

/-- One suggestion returned by the bulk-translation service. -/
structure BulkSuggestion where
  key : String
  suggestion : String
  deriving DecidableEq

/-- Observable interaction of `bulkTranslateKeys` with the outside world:
the request issued for a chunk, a progress callback, a throttling delay. -/
inductive BulkEvent where
  | request (chunk : List BulkKeyItem) : BulkEvent
  | progress (current total : Nat) : BulkEvent
  | delay (ms : Nat) : BulkEvent
  deriving DecidableEq

/-- Chunking worker, structurally recursive on a fuel that bounds the list
length (so that it evaluates by kernel reduction). -/
def chunksGo {α : Type} : Nat → List α → List (List α)
  | _, [] => []
  | 0, _ :: _ => []
  | fuel + 1, x :: xs => (x :: xs.take 9) :: chunksGo fuel (xs.drop 9)

/-- Consecutive chunks of at most ten elements, in input order: the slices
`keys.slice(i, i + 10)` taken by the loop of `bulkTranslateKeys`. -/
def chunks10 {α : Type} (l : List α) : List (List α) := chunksGo l.length l

/-- Is an error message quota-flagged
(`RESOURCE_EXHAUSTED`/`429` in the catch of `bulkTranslateKeys`)? -/
def quotaFlagged (e : String) : Bool :=
  containsStr e "RESOURCE_EXHAUSTED" || containsStr e "429"

/-- The message of the fresh error thrown by `bulkTranslateKeys` when a
chunk fails with a quota-flagged error. -/
def quotaAbortMsg (n : Nat) : String :=
  "AI translation failed on a batch: You have exceeded your request quota. Please wait a moment and try again. (" ++
    toString n ++ " keys in this batch were not translated)."

/-- The chunk loop of `bulkTranslateKeys`.  The remote call and response
parsing are a single oracle per chunk: `Except.error e` is a thrown error
with message `e`; `Except.ok none` is a parsed response without a
`translations` array (nothing is collected); `Except.ok (some l)` collects
`l`.  A quota-flagged error is re-thrown (with a fresh message) and ends the
loop; any other error only skips the chunk's suggestions.  After each
surviving chunk the progress callback fires with the number of keys consumed
so far, and a fixed 1000 ms delay runs whenever further chunks remain. -/
def bulkLoop (call : List BulkKeyItem → Except String (Option (List BulkSuggestion))) :
    List (List BulkKeyItem) → Nat → Nat → List BulkSuggestion → List BulkEvent →
    Except String (List BulkSuggestion) × List BulkEvent
  | [], _, _, acc, evs => (Except.ok acc, evs)
  | chunk :: rest, processed, total, acc, evs =>
      let evs1 := evs ++ [BulkEvent.request chunk]
      match call chunk with
      | Except.error e =>
          if quotaFlagged e then (Except.error (quotaAbortMsg chunk.length), evs1)
          else
            bulkLoop call rest (processed + chunk.length) total acc
              ((evs1 ++ [BulkEvent.progress (processed + chunk.length) total]) ++
                (if rest.isEmpty then [] else [BulkEvent.delay 1000]))
      | Except.ok none =>
          bulkLoop call rest (processed + chunk.length) total acc
            ((evs1 ++ [BulkEvent.progress (processed + chunk.length) total]) ++
              (if rest.isEmpty then [] else [BulkEvent.delay 1000]))
      | Except.ok (some sugs) =>
          bulkLoop call rest (processed + chunk.length) total (acc ++ sugs)
            ((evs1 ++ [BulkEvent.progress (processed + chunk.length) total]) ++
              (if rest.isEmpty then [] else [BulkEvent.delay 1000]))

/-- `bulkTranslateKeys` of `aiService`: result and interaction trace. -/
def bulkTranslateKeys
    (call : List BulkKeyItem → Except String (Option (List BulkSuggestion)))
    (keys : List BulkKeyItem) :
    Except String (List BulkSuggestion) × List BulkEvent :=
  bulkLoop call (chunks10 keys) 0 keys.length [] []

/-- Suggestions a single chunk contributes to the collected result. -/
def chunkSugs (call : List BulkKeyItem → Except String (Option (List BulkSuggestion)))
    (c : List BulkKeyItem) : List BulkSuggestion :=
  match call c with
  | Except.ok (some l) => l
  | _ => []

/-- Stated from the claim's words (for comparison with the code): the
interaction trace the claim describes — for each consecutive chunk of ten,
one request, then a progress callback whose `current` is the number of keys
consumed so far, then a fixed 1000 ms delay unless the chunk is the last. -/
def specBulkTraceAux : List (List BulkKeyItem) → Nat → Nat → List BulkEvent
  | [], _, _ => []
  | c :: rest, done, total =>
      [BulkEvent.request c, BulkEvent.progress (done + c.length) total] ++
        (if rest.isEmpty then [] else [BulkEvent.delay 1000]) ++
        specBulkTraceAux rest (done + c.length) total

/-- Stated from the claim's words: the full expected trace for `keys`. -/
def specBulkTrace (keys : List BulkKeyItem) : List BulkEvent :=
  specBulkTraceAux (chunks10 keys) 0 keys.length

/-- Evaluation tags of the analysis schema (`types.ts`). -/
inductive EvalTag where
  | good : EvalTag
  | needsImprovement : EvalTag
  | incorrect : EvalTag
  deriving DecidableEq

/-- One per-language analysis entry (`types.ts`). -/
structure AnalysisItem where
  language : String
  evaluation : EvalTag
  feedback : String
  suggestion : Option String
  deriving DecidableEq

/-- The structured result of `analyzeTranslations` (`types.ts`). -/
structure AIAnalysisResult where
  analysis : List AnalysisItem
  deriving DecidableEq

/-- Fixed message for permission failures (`aiService`). -/
def permissionDeniedMsg : String :=
  "AI analysis failed due to a permission error. Please ensure the API key is valid and has the necessary permissions enabled."

/-- Fixed message for quota failures (`aiService`). -/
def quotaExceededMsg : String :=
  "AI analysis failed: You have exceeded your request quota. Please wait a moment and try again, or check your API plan and billing details."

/-- Fixed message for invalid-key failures (`aiService`). -/
def invalidKeyMsg : String :=
  "AI analysis failed: The provided API key is not valid. Please check your API key and try again."

/-- Fixed fallback message (`aiService`). -/
def unknownErrorMsg : String :=
  "Failed to get analysis from AI. An unknown error occurred. Please check the console for more details."

/-- The catch cascade of `analyzeTranslations`: test the error text for
`PERMISSION_DENIED`/`403` first, then `RESOURCE_EXHAUSTED`/`429`, then
`api key not valid` case-insensitively, otherwise fall back to the unknown
error message. -/
def mapAnalysisError (e : String) : String :=
  if containsStr e "PERMISSION_DENIED" || containsStr e "403" then permissionDeniedMsg
  else if containsStr e "RESOURCE_EXHAUSTED" || containsStr e "429" then quotaExceededMsg
  else if containsStr (lowerStr e) "api key not valid" then invalidKeyMsg
  else unknownErrorMsg

/-- `analyzeTranslations` of `aiService`.  The LLM call is an oracle whose
`Except.error` carries `String(error)` of whatever the call threw; response
trimming, markdown-fence stripping, `JSON.parse` and the schema cast are the
`parse` oracle, whose `Except.error` carries the thrown parse error.  Every
failure of either oracle is routed through the catch cascade. -/
def analyzeTranslations (response : Except String String)
    (parse : String → Except String AIAnalysisResult) :
    Except String AIAnalysisResult :=
  match response with
  | Except.ok text =>
      match parse text with
      | Except.ok r => Except.ok r
      | Except.error e => Except.error (mapAnalysisError e)
  | Except.error e => Except.error (mapAnalysisError e)

/-- The substring heuristic for the source-of-truth file, as in
`aiService` (`part_001`), `GroupsView`, `GroupEditorForm`,
`TranslationKeyList` and `TranslationAnalysisCard`: the lowercased name
contains `pl` or `polish`. -/
def polishFileFinderSub (name : String) : Bool :=
  containsStr (lowerStr name) "pl" || containsStr (lowerStr name) "polish"

/-- The exact-match variant used by `BulkTranslateView` (first variant) and
the `aiService` variant embedded in `types.ts`: the lowercased name equals
`pl` or `polish`. -/
def polishFileFinderExact (name : String) : Bool :=
  lowerStr name == "pl" || lowerStr name == "polish"

/-- `files.find(polishFileFinder)` under the substring heuristic. -/
def findPolishFileSub (files : List TranslationFile) : Option TranslationFile :=
  files.find? (fun f => polishFileFinderSub f.name)

/-- `files.find(...)` under the exact-match heuristic. -/
def findPolishFileExact (files : List TranslationFile) : Option TranslationFile :=
  files.find? (fun f => polishFileFinderExact f.name)

/-- The group-editor form state (`GroupsView`/`GroupEditorForm`): name,
context, search query and the two key sets, with JavaScript `Set` contents
modelled as insertion-ordered duplicate-free lists. -/
structure GroupFormState where
  name : String
  context : String
  searchQuery : String
  selectedKeys : List String
  referenceKeys : List String
  deriving DecidableEq

/-- JavaScript `set.delete(k)` on the list model. -/
def jsSetDelete (l : List String) (k : String) : List String :=
  l.filter (fun y => !(y == k))

/-- JavaScript `set.add(k)` on the list model. -/
def jsSetAdd (l : List String) (k : String) : List String :=
  if l.contains k then l else l ++ [k]

/-- `toggleKeySelection`: deselecting a key also removes it from the
reference set; selecting a key leaves the reference set alone. -/
def toggleKeySelection (k : String) (s : GroupFormState) : GroupFormState :=
  if s.selectedKeys.contains k then
    { s with selectedKeys := jsSetDelete s.selectedKeys k
             referenceKeys := jsSetDelete s.referenceKeys k }
  else { s with selectedKeys := jsSetAdd s.selectedKeys k }

/-- `toggleReferenceKey`: a key becomes a reference only when it is
currently selected; toggling an existing reference removes it. -/
def toggleReferenceKey (k : String) (s : GroupFormState) : GroupFormState :=
  if s.referenceKeys.contains k then
    { s with referenceKeys := jsSetDelete s.referenceKeys k }
  else if s.selectedKeys.contains k then
    { s with referenceKeys := jsSetAdd s.referenceKeys k }
  else s

/-- The header select-all checkbox handler of the group form:
`selectedKeys := checked ? new Set(searchResults) : new Set()` — the
reference set is left untouched. -/
def selectAllChange (checked : Bool) (searchResults : List String)
    (s : GroupFormState) : GroupFormState :=
  { s with selectedKeys := if checked then jsSetList searchResults else [] }

/-- `handleSaveGroup` (create path; the edit path fills the same four fields
of the group being replaced): `none` models the early-returned alert when
the trimmed name is empty or nothing is selected. -/
def saveGroup (newId : String) (s : GroupFormState) : Option TranslationGroup :=
  if strTrim s.name == "" || s.selectedKeys.isEmpty then none
  else
    some
      { id := newId
        name := strTrim s.name
        context := strTrim s.context
        keys := s.selectedKeys
        referenceKeys := s.referenceKeys }

/-- The invariant the claim asserts for the group form. -/
def formInv (s : GroupFormState) : Prop :=
  s.referenceKeys ⊆ s.selectedKeys

def demoCleanTree : Json :=
  Json.obj [("buttons", Json.obj [("submit", Json.str "Zapisz")]),
            ("title", Json.str "Strona")]

def demoDirtyTree : Json :=
  Json.obj [("a", Json.num 1), ("a.b", Json.num 2)]

def demoFilePl : TranslationFile :=
  ⟨"pl", Json.obj [("buttons", Json.obj [("submit", Json.str "Zapisz")]), ("x", Json.str "a")]⟩

def demoFileEn : TranslationFile :=
  ⟨"en", Json.obj [("buttons", Json.obj [("submit", Json.str "Save")]), ("y", Json.str "b")]⟩

def demoUploadData : UploadData :=
  { translationFiles :=
      [⟨"en", Json.obj [("a", Json.str "x")]⟩,
       ⟨"de", Json.obj [("a", Json.obj [("b", Json.str "z")])]⟩]
    contexts := Json.obj []
    history := []
    groups := []
    globalContext := "" }

def demoSt0 : AppState := handleFilesUpload "t0" demoUploadData ⟨none, []⟩

def demoSt1 : AppState :=
  handleUpdateValueAndHistory "t1" "en" "a.b" (Json.str "y") demoSt0

def demoProj : ProjectData :=
  { translationFiles := [demoFilePl]
    contexts := Json.obj [("k", Json.str "ctx")]
    translationHistory := []
    translationGroups := []
    globalContext := ""
    lastUpdated := "t0" }

def demoParse : String → Option Json :=
  fun s => if s = "OBJ" then some (Json.obj [("a", Json.str "x")]) else none

def mkBulkKey (s : String) : BulkKeyItem := ⟨s, "", "", "", ""⟩

def demoBulkKeys : List BulkKeyItem :=
  ["k01", "k02", "k03", "k04", "k05", "k06", "k07", "k08", "k09", "k10", "k11"].map mkBulkKey

def demoQuotaCall : List BulkKeyItem → Except String (Option (List BulkSuggestion)) :=
  fun _ => Except.error "429"

def demoOkCall : List BulkKeyItem → Except String (Option (List BulkSuggestion)) :=
  fun c => Except.ok (some (c.map (fun k => ⟨k.key, "s"⟩)))

def demoMixedCall : List BulkKeyItem → Except String (Option (List BulkSuggestion)) :=
  fun c =>
    if c.length = 1 then Except.ok (some (c.map (fun k => ⟨k.key, "s"⟩)))
    else Except.error "boom"

def demoParseAI : String → Except String AIAnalysisResult :=
  fun _ => Except.error "SyntaxError: Unexpected token"

def demoPlaneFiles : List TranslationFile := [⟨"plane", Json.obj []⟩]

def demoFormReached : GroupFormState :=
  { selectAllChange true ["b"]
      (toggleReferenceKey "a" (toggleKeySelection "a" ⟨"", "", "", [], []⟩)) with
    name := "g" }

def demoSavedGroup : TranslationGroup := ⟨"1", "g", "", ["b"], ["a"]⟩

theorem not_mem_of_containsStr_single {c : Char} :
    ∀ {l : List Char}, listContainsSub [c] l = false → c ∉ l := by
  intro l h
  induction l with
  | nil => simp
  | cons x xs ih =>
    simp only [listContainsSub, listStartsWith, Bool.or_eq_false_iff,
      Bool.and_eq_false_iff] at h
    rcases h with ⟨h1, h2⟩
    simp only [List.mem_cons, not_or]
    refine ⟨?_, ih h2⟩
    rcases h1 with h1 | h1
    · intro hc; rw [hc] at h1; simp at h1
    · simp at h1

theorem splitOnDot_ne_nil : ∀ l : List Char, splitOnDot l ≠ [] := by
  intro l
  cases l with
  | nil => simp [splitOnDot]
  | cons c rest =>
    simp only [splitOnDot]
    by_cases hc : c = '.'
    · simp [hc]
    · simp only [hc, if_false]
      cases splitOnDot rest <;> simp

theorem splitOnDot_no_dot : ∀ {l : List Char}, '.' ∉ l → splitOnDot l = [l] := by
  intro l h
  induction l with
  | nil => rfl
  | cons c rest ih =>
    simp only [List.mem_cons, not_or] at h
    simp only [splitOnDot, (Ne.symm h.1), if_false, ih h.2]

theorem splitOnDot_append {a : List Char} (t : List Char) (h : '.' ∉ a) :
    splitOnDot (a ++ '.' :: t) = a :: splitOnDot t := by
  induction a with
  | nil => simp [splitOnDot]
  | cons c a' ih =>
    simp only [List.mem_cons, not_or] at h
    have hrec : splitOnDot (a' ++ '.' :: t) = a' :: splitOnDot t := ih h.2
    simp only [List.cons_append, splitOnDot, if_neg (Ne.symm h.1)]
    rw [show a'.append ('.' :: t) = a' ++ '.' :: t from rfl, hrec]

theorem splitPath_joinSegs :
    ∀ segs : List String, segs ≠ [] →
      (∀ s ∈ segs, containsStr s "." = false) →
      splitPath (joinSegs segs) = segs := by
  intro segs
  induction segs with
  | nil => intro h; exact absurd rfl h
  | cons s rest ih =>
    intro _ hclean
    have hs : '.' ∉ s.data :=
      not_mem_of_containsStr_single (hclean s (List.mem_cons_self s rest))
    cases rest with
    | nil =>
      simp only [joinSegs, splitPath, splitOnDot_no_dot hs, List.map]
    | cons s' rest' =>
      have hdata : (joinSegs (s :: s' :: rest')).data =
          s.data ++ '.' :: (joinSegs (s' :: rest')).data := by
        simp [joinSegs, String.data_append]
      have ihr := ih (by simp)
        (fun x hx => hclean x (List.mem_cons_of_mem s hx))
      simp only [splitPath] at ihr ⊢
      rw [hdata, splitOnDot_append _ hs, List.map_cons, ihr]

theorem mem_leafSegsFields {segs : List String} :
    ∀ {fs : List (String × Json)},
      segs ∈ leafSegsFields fs ↔
        ∃ k v rest, (k, v) ∈ fs ∧ rest ∈ leafSegsJ v ∧ segs = k :: rest := by
  intro fs
  induction fs with
  | nil => simp [leafSegsFields]
  | cons kv fs ih =>
    obtain ⟨k0, v0⟩ := kv
    simp only [leafSegsFields, List.mem_append, List.mem_map, ih, List.mem_cons]
    constructor
    · rintro (⟨rest, hrest, hsegs⟩ | ⟨k, v, rest, hmem, hrest, hsegs⟩)
      · exact ⟨k0, v0, rest, Or.inl rfl, hrest, hsegs.symm⟩
      · exact ⟨k, v, rest, Or.inr hmem, hrest, hsegs⟩
    · rintro ⟨k, v, rest, hmem | hmem, hrest, hsegs⟩
      · obtain ⟨hk, hv⟩ := Prod.mk.injEq .. ▸ hmem
        exact Or.inl ⟨rest, by rw [← hv]; exact hrest, by rw [hsegs, hk]⟩
      · exact Or.inr ⟨k, v, rest, hmem, hrest, hsegs⟩

theorem leafSegsJ_all_nil {v : Json} (h : [] ∈ leafSegsJ v) :
    ∀ segs ∈ leafSegsJ v, segs = [] := by
  intro segs hsegs
  cases v with
  | obj fs =>
    simp only [leafSegsJ] at h
    rw [mem_leafSegsFields] at h
    obtain ⟨k, w, rest, _, _, hcon⟩ := h
    exact absurd hcon (by simp)
  | arr es =>
    cases es with
    | nil => simp [leafSegsJ] at h
    | cons e es => simp [leafSegsJ] at hsegs; exact hsegs
  | null => simp [leafSegsJ] at hsegs; exact hsegs
  | bool b => simp [leafSegsJ] at hsegs; exact hsegs
  | num n => simp [leafSegsJ] at hsegs; exact hsegs
  | str s => simp [leafSegsJ] at hsegs; exact hsegs

theorem leafSegsJ_cons_obj {v : Json} {k : String} {rest : List String}
    (h : (k :: rest) ∈ leafSegsJ v) : ∃ gs, v = Json.obj gs := by
  cases v with
  | obj fs => exact ⟨fs, rfl⟩
  | arr es => cases es <;> simp [leafSegsJ] at h
  | null => simp [leafSegsJ] at h
  | bool b => simp [leafSegsJ] at h
  | num n => simp [leafSegsJ] at h
  | str s => simp [leafSegsJ] at h

theorem lookupField_eq_of_mem :
    ∀ {fs : List (String × Json)} {k : String} {v : Json},
      (k, v) ∈ fs → nodupNames (fs.map Prod.fst) = true →
      lookupField fs k = some v := by
  intro fs
  induction fs with
  | nil => intro k v h _; simp at h
  | cons kv fs ih =>
    obtain ⟨k0, v0⟩ := kv
    intro k v hmem hnd
    simp only [List.map_cons, nodupNames, Bool.and_eq_true, Bool.not_eq_true'] at hnd
    rcases List.mem_cons.mp hmem with heq | htl
    · obtain ⟨hk, hv⟩ := Prod.mk.injEq .. ▸ heq
      simp [lookupField, hk, hv]
    · by_cases hk : k0 = k
      · exfalso
        have hmm : k ∈ fs.map Prod.fst := List.mem_map.mpr ⟨(k, v), htl, rfl⟩
        rw [hk] at hnd
        have hnm : k ∉ fs.map Prod.fst := by simpa using hnd.1
        exact hnm hmm
      · simp only [lookupField, hk, if_false]
        exact ih htl hnd.2

theorem cleanFields_mem :
    ∀ {fs : List (String × Json)} {k : String} {v : Json},
      cleanFields fs = true → (k, v) ∈ fs →
      (k = "" → False) ∧ containsStr k "." = false ∧ cleanJson v = true := by
  intro fs
  induction fs with
  | nil => intro k v _ h; simp at h
  | cons kv fs ih =>
    obtain ⟨k0, v0⟩ := kv
    intro k v hclean hmem
    simp only [cleanFields, Bool.and_eq_true, Bool.not_eq_true'] at hclean
    obtain ⟨⟨⟨hk0, hd0⟩, hv0⟩, hfs⟩ := hclean
    rcases List.mem_cons.mp hmem with heq | htl
    · obtain ⟨hk, hv⟩ := Prod.mk.injEq .. ▸ heq
      subst hk; subst hv
      exact ⟨fun h => by rw [h] at hk0; simp at hk0, hd0, hv0⟩
    · exact ih hfs htl

theorem sizeOf_val_lt {fs : List (String × Json)} {k : String} {v : Json}
    (h : (k, v) ∈ fs) : sizeOf v < sizeOf (Json.obj fs) := by
  have h1 : sizeOf (k, v) < sizeOf fs := List.sizeOf_lt_of_mem h
  simp only [Prod.mk.sizeOf_spec] at h1
  simp only [Json.obj.sizeOf_spec]
  omega

theorem clean_leafSegs :
    ∀ (n : Nat) (tree : Json), sizeOf tree ≤ n → cleanJson tree = true →
      ∀ segs ∈ leafSegsJ tree, ∀ s ∈ segs,
        (s = "" → False) ∧ containsStr s "." = false := by
  intro n
  induction n with
  | zero =>
    intro tree hsz
    exfalso
    cases tree <;> simp_all
  | succ n ih =>
    intro tree hsz hclean segs hsegs s hs
    cases tree with
    | obj fs =>
      simp only [leafSegsJ] at hsegs
      rw [mem_leafSegsFields] at hsegs
      obtain ⟨k, v, rest, hmem, hrest, hse⟩ := hsegs
      simp only [cleanJson, Bool.and_eq_true] at hclean
      have hfield := cleanFields_mem hclean.2 hmem
      subst hse
      rcases List.mem_cons.mp hs with hks | hstl
      · subst hks; exact ⟨hfield.1, hfield.2.1⟩
      · have hszv : sizeOf v ≤ n := by
          have := sizeOf_val_lt hmem
          omega
        exact ih v hszv hfield.2.2 rest hrest s hstl
    | arr es =>
      cases es with
      | nil => simp [leafSegsJ] at hsegs
      | cons e es =>
        simp only [leafSegsJ, List.mem_singleton] at hsegs
        subst hsegs; simp at hs
    | null => simp only [leafSegsJ, List.mem_singleton] at hsegs; subst hsegs; simp at hs
    | bool b => simp only [leafSegsJ, List.mem_singleton] at hsegs; subst hsegs; simp at hs
    | num m => simp only [leafSegsJ, List.mem_singleton] at hsegs; subst hsegs; simp at hs
    | str t => simp only [leafSegsJ, List.mem_singleton] at hsegs; subst hsegs; simp at hs

theorem lookupField_upsert_self :
    ∀ (fs : List (String × Json)) (k : String) (v : Json),
      lookupField (upsert fs k v) k = some v := by
  intro fs k v
  induction fs with
  | nil => simp [upsert, lookupField]
  | cons kv fs ih =>
    obtain ⟨k0, v0⟩ := kv
    by_cases hk : k0 = k
    · simp [upsert, hk, lookupField]
    · simp only [upsert, hk, if_false, lookupField, ih]

theorem lookupField_upsert_other :
    ∀ (fs : List (String × Json)) (k : String) (v : Json) (k' : String),
      k ≠ k' → lookupField (upsert fs k v) k' = lookupField fs k' := by
  intro fs k v k' hne
  induction fs with
  | nil => simp [upsert, lookupField, hne]
  | cons kv fs ih =>
    obtain ⟨k0, v0⟩ := kv
    by_cases hk : k0 = k
    · subst hk
      simp [upsert, lookupField, hne]
    · simp only [upsert, hk, if_false, lookupField, ih]

theorem getSegs_setSegs :
    ∀ (segs : List String) (tree v : Json), segs ≠ [] →
      getSegs (setSegs tree segs v) segs = some v := by
  intro segs
  induction segs with
  | nil => intro tree v h; exact absurd rfl h
  | cons k rest ih =>
    intro tree v _
    cases rest with
    | nil =>
      cases tree <;>
        simp [setSegs, getSegs, lookupField, lookupField_upsert_self]
    | cons k' rest' =>
      cases tree with
      | obj fs =>
        simp only [setSegs, getSegs, lookupField_upsert_self]
        exact ih _ v (by simp)
      | null => simp only [setSegs, getSegs, lookupField, if_pos rfl]; exact ih _ v (by simp)
      | bool b => simp only [setSegs, getSegs, lookupField, if_pos rfl]; exact ih _ v (by simp)
      | num m => simp only [setSegs, getSegs, lookupField, if_pos rfl]; exact ih _ v (by simp)
      | str t => simp only [setSegs, getSegs, lookupField, if_pos rfl]; exact ih _ v (by simp)
      | arr es => simp only [setSegs, getSegs, lookupField, if_pos rfl]; exact ih _ v (by simp)

theorem setSegs_frame :
    ∀ (n : Nat) (tree : Json), sizeOf tree ≤ n → cleanJson tree = true →
      ∀ (segsP segsQ : List String) (v : Json),
        segsP ∈ leafSegsJ tree → segsQ ∈ leafSegsJ tree → segsP ≠ segsQ →
        getSegs (setSegs tree segsP v) segsQ = getSegs tree segsQ := by
  intro n
  induction n with
  | zero =>
    intro tree hsz
    exfalso
    cases tree <;> simp_all
  | succ n ih =>
    intro tree hsz hclean segsP segsQ v hP hQ hne
    cases tree with
    | obj fs =>
      simp only [leafSegsJ] at hP hQ
      rw [mem_leafSegsFields] at hP hQ
      obtain ⟨kP, vP, restP, hmemP, hrestP, hseP⟩ := hP
      obtain ⟨kQ, vQ, restQ, hmemQ, hrestQ, hseQ⟩ := hQ
      simp only [cleanJson, Bool.and_eq_true] at hclean
      have hlookP : lookupField fs kP = some vP :=
        lookupField_eq_of_mem hmemP hclean.1
      have hlookQ : lookupField fs kQ = some vQ :=
        lookupField_eq_of_mem hmemQ hclean.1
      subst hseP; subst hseQ
      by_cases hkk : kP = kQ
      · subst hkk
        have hvv : vP = vQ := by
          rw [hlookP] at hlookQ; exact (Option.some.injEq .. ▸ hlookQ)
        subst hvv
        have hrr : restP ≠ restQ := by
          intro h; rw [h] at hne; exact hne rfl
        cases restP with
        | nil =>
          exfalso
          exact hrr ((leafSegsJ_all_nil hrestP restQ hrestQ).symm)
        | cons k' rest' =>
          obtain ⟨gs, hgs⟩ := leafSegsJ_cons_obj hrestP
          subst hgs
          simp only [setSegs, hlookP, getSegs, lookupField_upsert_self, hlookQ]
          have hszv : sizeOf (Json.obj gs) ≤ n := by
            have := sizeOf_val_lt hmemP
            omega
          exact ih (Json.obj gs) hszv (cleanFields_mem hclean.2 hmemP).2.2
            (k' :: rest') restQ v hrestP hrestQ hrr
      · cases restP with
        | nil =>
          simp only [setSegs, getSegs,
            lookupField_upsert_other fs kP v kQ hkk, hlookQ]
        | cons k' rest' =>
          simp only [setSegs, getSegs,
            lookupField_upsert_other fs kP _ kQ hkk, hlookQ]
    | arr es =>
      cases es with
      | nil => simp [leafSegsJ] at hP
      | cons e es =>
        simp only [leafSegsJ, List.mem_singleton] at hP hQ
        exact absurd (hP.trans hQ.symm) hne
    | null =>
      simp only [leafSegsJ, List.mem_singleton] at hP hQ
      exact absurd (hP.trans hQ.symm) hne
    | bool b =>
      simp only [leafSegsJ, List.mem_singleton] at hP hQ
      exact absurd (hP.trans hQ.symm) hne
    | num m =>
      simp only [leafSegsJ, List.mem_singleton] at hP hQ
      exact absurd (hP.trans hQ.symm) hne
    | str t =>
      simp only [leafSegsJ, List.mem_singleton] at hP hQ
      exact absurd (hP.trans hQ.symm) hne

theorem leafSegsJ_obj_ne_nil {fs : List (String × Json)} {segs : List String}
    (h : segs ∈ leafSegsJ (Json.obj fs)) : segs ≠ [] := by
  simp only [leafSegsJ] at h
  rw [mem_leafSegsFields] at h
  obtain ⟨k, v, rest, _, _, hh⟩ := h
  simp [hh]

theorem flattenObjectKeys_mem {T : Json} {p : String}
    (hp : p ∈ flattenObjectKeys T) :
    ∃ segs ∈ leafSegsJ T, joinSegs segs = p := by
  cases T with
  | obj fs =>
    simp only [flattenObjectKeys] at hp
    exact List.mem_map.mp hp
  | arr es => simp [flattenObjectKeys] at hp
  | null => simp [flattenObjectKeys] at hp
  | bool b => simp [flattenObjectKeys] at hp
  | num m => simp [flattenObjectKeys] at hp
  | str t => simp [flattenObjectKeys] at hp

theorem leafSegsJ_mem_ne_nil {T : Json} {segs : List String}
    (hT : ∃ q, q ∈ flattenObjectKeys T) (h : segs ∈ leafSegsJ T) : segs ≠ [] := by
  obtain ⟨q, hq⟩ := hT
  cases T with
  | obj fs => exact leafSegsJ_obj_ne_nil h
  | arr es => simp [flattenObjectKeys] at hq
  | null => simp [flattenObjectKeys] at hq
  | bool b => simp [flattenObjectKeys] at hq
  | num m => simp [flattenObjectKeys] at hq
  | str t => simp [flattenObjectKeys] at hq

/-- Claim C1 (amended): on a clean tree — one whose mapping keys are
duplicate-free (as in any JavaScript object), nonempty and dot-free — a
write at any flattened leaf path round-trips (`get` after `set` returns
exactly the written value, and the empty-path `InvalidPathError` is never
hit), and the written tree agrees with the original at every other
flattened leaf path. -/
theorem setValueByPath_roundtrip_and_frame (T : Json) (p : String) (v : Json)
    (hclean : cleanJson T = true) (hp : p ∈ flattenObjectKeys T) :
    setValueByPath T p v = Except.ok (setValueByPathD T p v) ∧
    getValueByPath (setValueByPathD T p v) p = some v ∧
    ∀ q ∈ flattenObjectKeys T, q ≠ p →
      getValueByPath (setValueByPathD T p v) q = getValueByPath T q := by
  obtain ⟨segsP, hsegsP, hjoinP⟩ := flattenObjectKeys_mem hp
  have hPne : segsP ≠ [] := leafSegsJ_mem_ne_nil ⟨p, hp⟩ hsegsP
  have hcleanP := clean_leafSegs (sizeOf T) T le_rfl hclean segsP hsegsP
  have hsplitP : splitPath p = segsP := by
    rw [← hjoinP]
    exact splitPath_joinSegs segsP hPne (fun s hs => (hcleanP s hs).2)
  have hpne : p ≠ "" := by
    intro h
    have h2 : ([""] : List String) = segsP := by
      rw [← hsplitP, h]; rfl
    exact (hcleanP "" (by rw [← h2]; simp)).1 rfl
  refine ⟨by simp [setValueByPath, hpne], ?_, ?_⟩
  · unfold getValueByPath setValueByPathD
    rw [hsplitP]
    exact getSegs_setSegs segsP T v hPne
  · intro q hq hqne
    obtain ⟨segsQ, hsegsQ, hjoinQ⟩ := flattenObjectKeys_mem hq
    have hQne : segsQ ≠ [] := leafSegsJ_mem_ne_nil ⟨p, hp⟩ hsegsQ
    have hcleanQ := clean_leafSegs (sizeOf T) T le_rfl hclean segsQ hsegsQ
    have hsplitQ : splitPath q = segsQ := by
      rw [← hjoinQ]
      exact splitPath_joinSegs segsQ hQne (fun s hs => (hcleanQ s hs).2)
    have hPQ : segsP ≠ segsQ := by
      intro h
      exact hqne (by rw [← hjoinQ, ← h, hjoinP])
    unfold getValueByPath setValueByPathD
    rw [hsplitP, hsplitQ]
    exact setSegs_frame (sizeOf T) T le_rfl hclean segsP segsQ v hsegsP hsegsQ hPQ

theorem setValueByPath_roundtrip_and_frame_witness :
    cleanJson demoCleanTree = true ∧
    "buttons.submit" ∈ flattenObjectKeys demoCleanTree ∧
    (setValueByPath demoCleanTree "buttons.submit" (Json.str "Save") =
        Except.ok (setValueByPathD demoCleanTree "buttons.submit" (Json.str "Save")) ∧
      getValueByPath (setValueByPathD demoCleanTree "buttons.submit" (Json.str "Save"))
          "buttons.submit" = some (Json.str "Save") ∧
      ∀ q ∈ flattenObjectKeys demoCleanTree, q ≠ "buttons.submit" →
        getValueByPath (setValueByPathD demoCleanTree "buttons.submit" (Json.str "Save")) q =
          getValueByPath demoCleanTree q) :=
  ⟨by decide, by decide,
    setValueByPath_roundtrip_and_frame demoCleanTree "buttons.submit" (Json.str "Save")
      (by decide) (by decide)⟩

theorem setValueByPath_frame_counterexample :
    "a" ∈ flattenObjectKeys demoDirtyTree ∧
    "a.b" ∈ flattenObjectKeys demoDirtyTree ∧
    ("a" : String) ≠ "a.b" ∧
    setValueByPath demoDirtyTree "a.b" (Json.str "x") =
      Except.ok (setValueByPathD demoDirtyTree "a.b" (Json.str "x")) ∧
    getValueByPath demoDirtyTree "a" = some (Json.num 1) ∧
    getValueByPath (setValueByPathD demoDirtyTree "a.b" (Json.str "x")) "a" =
      some (Json.obj [("b", Json.str "x")]) ∧
    (some (Json.num 1) : Option Json) ≠ some (Json.obj [("b", Json.str "x")]) :=
  ⟨by decide, by decide, by decide, rfl, rfl, rfl, by simp⟩

theorem charListLtB_cons_iff {x y : Char} {xs ys : List Char} :
    charListLtB (x :: xs) (y :: ys) = true ↔
      x.toNat < y.toNat ∨ (x.toNat = y.toNat ∧ charListLtB xs ys = true) := by
  simp only [charListLtB]
  split_ifs with ha hb
  · simp only [true_iff]; exact Or.inl ha
  · refine ⟨fun h => by simp at h, fun h => ?_⟩
    rcases h with h | ⟨he, _⟩ <;> omega
  · refine ⟨fun h => Or.inr ⟨by omega, h⟩, fun h => ?_⟩
    rcases h with h | ⟨_, ht⟩
    · omega
    · exact ht

theorem charListLtB_cons_iff_false {x y : Char} {xs ys : List Char} :
    charListLtB (x :: xs) (y :: ys) = false ↔
      y.toNat < x.toNat ∨ (x.toNat = y.toNat ∧ charListLtB xs ys = false) := by
  simp only [charListLtB]
  split_ifs with ha hb
  · refine ⟨fun h => by simp at h, fun h => ?_⟩
    rcases h with h | ⟨he, _⟩ <;> omega
  · simp only [true_iff]; exact Or.inl hb
  · refine ⟨fun h => Or.inr ⟨by omega, h⟩, fun h => ?_⟩
    rcases h with h | ⟨_, ht⟩
    · omega
    · exact ht

theorem charListLtB_asymm :
    ∀ a b : List Char, charListLtB a b = true → charListLtB b a = false := by
  intro a
  induction a with
  | nil => intro b h; cases b <;> simp_all [charListLtB]
  | cons x xs ih =>
    intro b h
    cases b with
    | nil => simp [charListLtB] at h
    | cons y ys =>
      rw [charListLtB_cons_iff] at h
      rw [charListLtB_cons_iff_false]
      rcases h with h | ⟨he, ht⟩
      · left; exact h
      · right; exact ⟨he.symm, ih ys ht⟩

theorem charListLtB_eq_of_not :
    ∀ a b : List Char, charListLtB a b = false → charListLtB b a = false → a = b := by
  intro a
  induction a with
  | nil => intro b h1 _; cases b <;> simp_all [charListLtB]
  | cons x xs ih =>
    intro b h1 h2
    cases b with
    | nil => simp [charListLtB] at h2
    | cons y ys =>
      rw [charListLtB_cons_iff_false] at h1 h2
      have hxy : x.toNat = y.toNat := by omega
      have hx : x = y := Char.ext (UInt32.toNat.inj hxy)
      have ht : charListLtB xs ys = false := by
        rcases h1 with h1 | h1
        · omega
        · exact h1.2
      have ht' : charListLtB ys xs = false := by
        rcases h2 with h2 | h2
        · omega
        · exact h2.2
      rw [hx, ih ys ht ht']

theorem charListLtB_trans :
    ∀ a b c : List Char, charListLtB a b = true → charListLtB b c = true →
      charListLtB a c = true := by
  intro a
  induction a with
  | nil =>
    intro b c h1 h2
    cases b with
    | nil => simp [charListLtB] at h1
    | cons y ys =>
      cases c with
      | nil => simp [charListLtB] at h2
      | cons z zs => simp [charListLtB]
  | cons x xs ih =>
    intro b c h1 h2
    cases b with
    | nil => simp [charListLtB] at h1
    | cons y ys =>
      cases c with
      | nil => simp [charListLtB] at h2
      | cons z zs =>
        rw [charListLtB_cons_iff] at h1 h2 ⊢
        rcases h1 with h1 | ⟨he1, ht1⟩
        · rcases h2 with h2 | ⟨he2, ht2⟩
          · left; omega
          · left; omega
        · rcases h2 with h2 | ⟨he2, ht2⟩
          · left; omega
          · right; exact ⟨by omega, ih ys zs ht1 ht2⟩

theorem string_eq_of_data_eq {a b : String} (h : a.data = b.data) : a = b := by
  cases a; cases b; simp_all

theorem strLe_total : ∀ a b : String, strLe a b ∨ strLe b a := by
  intro a b
  simp only [strLe, strLeB, strLtB, Bool.not_eq_true']
  by_cases h : charListLtB b.data a.data = true
  · right; exact charListLtB_asymm _ _ h
  · left; simpa using h

theorem strLe_antisymm : ∀ a b : String, strLe a b → strLe b a → a = b := by
  intro a b h1 h2
  simp only [strLe, strLeB, Bool.not_eq_true', strLtB] at h1 h2
  exact string_eq_of_data_eq (charListLtB_eq_of_not _ _ h2 h1)

theorem strLe_trans : ∀ a b c : String, strLe a b → strLe b c → strLe a c := by
  intro a b c h1 h2
  simp only [strLe, strLeB, Bool.not_eq_true', strLtB] at h1 h2 ⊢
  by_cases hca : charListLtB c.data a.data = true
  · exfalso
    by_cases hab : charListLtB a.data b.data = true
    · exact absurd (charListLtB_trans _ _ _ hca hab) (by simp [h2])
    · have hab' : a.data = b.data :=
        charListLtB_eq_of_not _ _ (Bool.not_eq_true _ ▸ hab) h1
      rw [hab'] at hca
      exact absurd hca (by simp [h2])
  · simpa using hca

instance : IsTotal String strLe := ⟨strLe_total⟩

instance : IsTrans String strLe := ⟨strLe_trans⟩

instance : IsAntisymm String strLe := ⟨strLe_antisymm⟩

theorem mem_jsSetList {a : String} : ∀ {l : List String}, a ∈ jsSetList l ↔ a ∈ l := by
  intro l
  induction l with
  | nil => simp [jsSetList]
  | cons x xs ih =>
    simp only [jsSetList, List.mem_cons, List.mem_filter, ih, Bool.not_eq_true',
      beq_eq_false_iff_ne, ne_eq]
    constructor
    · rintro (h | ⟨h, _⟩)
      · exact Or.inl h
      · exact Or.inr h
    · rintro (h | h)
      · exact Or.inl h
      · by_cases hax : a = x
        · exact Or.inl hax
        · exact Or.inr ⟨h, by simpa using hax⟩

theorem nodup_jsSetList : ∀ l : List String, (jsSetList l).Nodup := by
  intro l
  induction l with
  | nil => simp [jsSetList]
  | cons x xs ih =>
    simp only [jsSetList, List.nodup_cons]
    refine ⟨?_, ih.filter _⟩
    intro hmem
    have := (List.mem_filter.mp hmem).2
    simp at this

theorem sorted_strSort (l : List String) : List.Sorted strLe (strSort l) :=
  List.sorted_insertionSort strLe l

theorem perm_strSort (l : List String) : List.Perm (strSort l) l :=
  List.perm_insertionSort strLe l

/-- Claim C4: the key universe computed at import — flatten each file,
dedup through a set, sort — is invariant under permutation of the file
list, duplicate-free, and sorted ascending by the standard non-locale
string comparison. -/
theorem unionKeys_deterministic (files files' : List TranslationFile)
    (h : List.Perm files files') :
    unionKeys files = unionKeys files' ∧
    (unionKeys files).Nodup ∧
    List.Sorted strLe (unionKeys files) := by
  have hperm : List.Perm
      (jsSetList (files.flatMap (fun f => flattenObjectKeys f.data)))
      (jsSetList (files'.flatMap (fun f => flattenObjectKeys f.data))) := by
    rw [List.perm_ext_iff_of_nodup (nodup_jsSetList _) (nodup_jsSetList _)]
    intro a
    simp only [mem_jsSetList, List.mem_flatMap]
    constructor
    · rintro ⟨f, hf, ha⟩; exact ⟨f, h.mem_iff.mp hf, ha⟩
    · rintro ⟨f, hf, ha⟩; exact ⟨f, h.mem_iff.mpr hf, ha⟩
  refine ⟨?_, ?_, sorted_strSort _⟩
  · exact List.eq_of_perm_of_sorted
      (((perm_strSort _).trans hperm).trans (perm_strSort _).symm)
      (sorted_strSort _) (sorted_strSort _)
  · exact ((perm_strSort _).nodup_iff).mpr (nodup_jsSetList _)

theorem unionKeys_deterministic_witness :
    unionKeys [demoFilePl, demoFileEn] = unionKeys [demoFileEn, demoFilePl] ∧
    (unionKeys [demoFilePl, demoFileEn]).Nodup ∧
    List.Sorted strLe (unionKeys [demoFilePl, demoFileEn]) :=
  unionKeys_deterministic [demoFilePl, demoFileEn] [demoFileEn, demoFilePl]
    (List.Perm.swap demoFileEn demoFilePl [])

/-- Claim C5 (counterexample): after a single-value edit through
`handleUpdateValueAndHistory` at a key of the current universe, `allKeys`
still holds the old universe while the true union of leaf paths has
changed — the state has drifted. -/
theorem allKeys_drift_counterexample :
    demoSt0.allKeys = ["a", "a.b"] ∧
    demoSt1.allKeys = ["a", "a.b"] ∧
    unionKeys ((demoSt1.projectData.map ProjectData.translationFiles).getD []) = ["a.b"] ∧
    demoSt1.allKeys ≠
      unionKeys ((demoSt1.projectData.map ProjectData.translationFiles).getD []) :=
  ⟨by decide, by decide, by decide, by decide⟩

/-- Claim C5 (amended): the key universe is fully recomputed by
`handleFilesUpload`, where it equals the deduplicated sorted union of leaf
paths of the uploaded files; but `handleUpdateValueAndHistory` and
`handleSaveBulkTranslations` leave `allKeys` exactly as it was, so after an
edit the stored universe agrees with the true union only if the edit did
not change the leaf-path set. -/
theorem allKeys_full_recompute_on_upload_only (now fileName key : String)
    (v : Json) (res : UploadData)
    (updated : List (String × List (String × String))) (st : AppState) :
    (handleFilesUpload now res st).allKeys = unionKeys res.translationFiles ∧
    (handleUpdateValueAndHistory now fileName key v st).allKeys = st.allKeys ∧
    (handleSaveBulkTranslations now updated st).allKeys = st.allKeys := by
  refine ⟨?_, ?_, ?_⟩
  · by_cases h : res.translationFiles.isEmpty
    · rw [List.isEmpty_iff] at h
      simp [handleFilesUpload, h, unionKeys, jsSetList, strSort]
    · simp only [handleFilesUpload]
      rw [if_neg h]
  · cases hp : st.projectData <;> simp [handleUpdateValueAndHistory, hp]
  · cases hp : st.projectData <;> simp [handleSaveBulkTranslations, hp]

/-- Claim C10: `updateProjectData` keeps every field the updater's patch
does not mention and always stamps `lastUpdated` with the current time; in
particular `handleUpdateContext` with a context equal to the stored one
changes nothing but `lastUpdated`, and, when the clock moved, the resulting
state is different from the previous one (so the persistence effect that
fires on every new state rewrites the snapshot). -/
theorem updateProjectData_frame_and_touch (now : String)
    (updater : ProjectData → ProjectPatch) (p : ProjectData) (key c : String) :
    (updateProjectData now updater p).lastUpdated = now ∧
    ((updater p).translationFiles = none →
      (updateProjectData now updater p).translationFiles = p.translationFiles) ∧
    ((updater p).contexts = none →
      (updateProjectData now updater p).contexts = p.contexts) ∧
    ((updater p).translationHistory = none →
      (updateProjectData now updater p).translationHistory = p.translationHistory) ∧
    ((updater p).translationGroups = none →
      (updateProjectData now updater p).translationGroups = p.translationGroups) ∧
    ((updater p).globalContext = none →
      (updateProjectData now updater p).globalContext = p.globalContext) ∧
    (getValueByPath p.contexts key = some (Json.str c) →
      handleUpdateContext now key c p = { p with lastUpdated := now }) ∧
    (getValueByPath p.contexts key = some (Json.str c) → now ≠ p.lastUpdated →
      handleUpdateContext now key c p ≠ p) := by
  have hupd : ∀ h : getValueByPath p.contexts key = some (Json.str c),
      handleUpdateContext now key c p = { p with lastUpdated := now } := by
    intro h
    simp [handleUpdateContext, updateProjectData, applyPatch, h]
  refine ⟨rfl, ?_, ?_, ?_, ?_, ?_, hupd, ?_⟩
  · intro h; simp [updateProjectData, applyPatch, h]
  · intro h; simp [updateProjectData, applyPatch, h]
  · intro h; simp [updateProjectData, applyPatch, h]
  · intro h; simp [updateProjectData, applyPatch, h]
  · intro h; simp [updateProjectData, applyPatch, h]
  · intro h hne heq
    apply hne
    have := congrArg ProjectData.lastUpdated ((hupd h).symm.trans heq)
    simpa using this

theorem updateProjectData_frame_and_touch_witness :
    (updateProjectData "t1" (fun _ => {}) demoProj).lastUpdated = "t1" ∧
    (updateProjectData "t1" (fun _ => {}) demoProj).translationFiles =
      demoProj.translationFiles ∧
    (updateProjectData "t1" (fun _ => {}) demoProj).contexts = demoProj.contexts ∧
    handleUpdateContext "t1" "k" "ctx" demoProj =
      { demoProj with lastUpdated := "t1" } ∧
    handleUpdateContext "t1" "k" "ctx" demoProj ≠ demoProj := by
  obtain ⟨h1, h2, h3, _, _, _, h7, h8⟩ :=
    updateProjectData_frame_and_touch "t1" (fun _ => {}) demoProj "k" "ctx"
  exact ⟨h1, h2 rfl, h3 rfl, h7 rfl, h8 rfl (by decide)⟩

theorem default_tf_of_eq {r : UploadResult} (h : r = defaultUploadResult) :
    r.translationFiles = [] := by
  rw [h]; rfl

theorem processLoop_abort (parse : String → Option Json) :
    ∀ (files : List (String × String)) (acc : UploadResult),
      (∃ e ∈ files, strEndsWith e.1 ".json" = true ∧ parse e.2 = none) →
      processLoop parse files acc = defaultUploadResult := by
  intro files
  induction files with
  | nil =>
    rintro acc ⟨e, he, _⟩
    simp at he
  | cons ft rest ih =>
    obtain ⟨name, text⟩ := ft
    rintro acc ⟨e, he, hend, hfail⟩
    rcases List.mem_cons.mp he with heq | htl
    · rw [heq] at hend hfail
      simp only at hend hfail
      simp only [processLoop]
      by_cases h1 : name = "context.json"
      · rw [if_pos h1, hfail]
      · rw [if_neg h1]
        by_cases h2 : name = "history.json"
        · rw [if_pos h2, hfail]
        · rw [if_neg h2]
          by_cases h3 : name = "groups.json"
          · rw [if_pos h3, hfail]
          · rw [if_neg h3]
            by_cases h4 : name = "global_context.txt"
            · rw [h4] at hend
              exact absurd hend (by decide)
            · rw [if_neg h4]
              by_cases h5 : name = "reference_keys.json"
              · rw [if_pos h5, hfail]
              · rw [if_neg h5, if_pos hend, hfail]
    · have hex : ∃ e ∈ rest, strEndsWith e.1 ".json" = true ∧ parse e.2 = none :=
        ⟨e, htl, hend, hfail⟩
      simp only [processLoop]
      by_cases h1 : name = "context.json"
      · rw [if_pos h1]
        cases hp : parse text with
        | none => rfl
        | some j => exact ih _ hex
      · rw [if_neg h1]
        by_cases h2 : name = "history.json"
        · rw [if_pos h2]
          cases hp : parse text with
          | none => rfl
          | some j => exact ih _ hex
        · rw [if_neg h2]
          by_cases h3 : name = "groups.json"
          · rw [if_pos h3]
            cases hp : parse text with
            | none => rfl
            | some j => exact ih _ hex
          · rw [if_neg h3]
            by_cases h4 : name = "global_context.txt"
            · rw [if_pos h4]
              exact ih _ hex
            · rw [if_neg h4]
              by_cases h5 : name = "reference_keys.json"
              · rw [if_pos h5]
                cases hp : parse text with
                | none => rfl
                | some j => exact ih _ hex
              · rw [if_neg h5]
                by_cases h6 : strEndsWith name ".json" = true
                · rw [if_pos h6]
                  cases hp : parse text with
                  | none => rfl
                  | some j => exact ih _ hex
                · rw [if_neg h6]
                  exact ih _ hex

theorem processLoop_success (parse : String → Option Json) :
    ∀ (files : List (String × String)) (acc : UploadResult),
      (∀ e ∈ files, strEndsWith e.1 ".json" = true → (parse e.2).isSome) →
      (processLoop parse files acc = defaultUploadResult ↔
        (acc.translationFiles = [] ∧ ∀ e ∈ files, isTranslationName e.1 = false)) := by
  intro files
  induction files with
  | nil =>
    intro acc _
    simp only [processLoop, List.not_mem_nil, false_implies, implies_true, and_true]
    by_cases h : acc.translationFiles.isEmpty
    · rw [if_pos h]
      rw [List.isEmpty_iff] at h
      simp [h]
    · rw [if_neg h]
      rw [List.isEmpty_iff] at h
      exact ⟨fun heq => absurd (default_tf_of_eq heq) h, fun heq => absurd heq h⟩
  | cons ft rest ih =>
    obtain ⟨name, text⟩ := ft
    intro acc hall
    have hallr : ∀ e ∈ rest, strEndsWith e.1 ".json" = true → (parse e.2).isSome :=
      fun e he => hall e (List.mem_cons_of_mem _ he)
    simp only [processLoop]
    by_cases h1 : name = "context.json"
    · subst h1
      cases hp : parse text with
      | none =>
        exfalso
        have hsome := hall _ (List.mem_cons_self _ _)
          (by decide : strEndsWith "context.json" ".json" = true)
        rw [hp] at hsome; simp at hsome
      | some j =>
        rw [if_pos rfl]
        show processLoop parse rest { acc with contexts := j } = defaultUploadResult ↔ _
        rw [ih _ hallr]
        constructor
        · rintro ⟨htf, hr⟩
          refine ⟨htf, ?_⟩
          rintro e he
          rcases List.mem_cons.mp he with rfl | he'
          · exact (by decide : isTranslationName "context.json" = false)
          · exact hr e he'
        · rintro ⟨htf, hr⟩
          exact ⟨htf, fun e he => hr e (List.mem_cons_of_mem _ he)⟩
    · rw [if_neg h1]
      by_cases h2 : name = "history.json"
      · subst h2
        cases hp : parse text with
        | none =>
          exfalso
          have hsome := hall _ (List.mem_cons_self _ _)
            (by decide : strEndsWith "history.json" ".json" = true)
          rw [hp] at hsome; simp at hsome
        | some j =>
          rw [if_pos rfl]
          show processLoop parse rest { acc with history := j } = defaultUploadResult ↔ _
          rw [ih _ hallr]
          constructor
          · rintro ⟨htf, hr⟩
            refine ⟨htf, ?_⟩
            rintro e he
            rcases List.mem_cons.mp he with rfl | he'
            · exact (by decide : isTranslationName "history.json" = false)
            · exact hr e he'
          · rintro ⟨htf, hr⟩
            exact ⟨htf, fun e he => hr e (List.mem_cons_of_mem _ he)⟩
      · rw [if_neg h2]
        by_cases h3 : name = "groups.json"
        · subst h3
          cases hp : parse text with
          | none =>
            exfalso
            have hsome := hall _ (List.mem_cons_self _ _)
              (by decide : strEndsWith "groups.json" ".json" = true)
            rw [hp] at hsome; simp at hsome
          | some j =>
            rw [if_pos rfl]
            show processLoop parse rest { acc with groups := j } = defaultUploadResult ↔ _
            rw [ih _ hallr]
            constructor
            · rintro ⟨htf, hr⟩
              refine ⟨htf, ?_⟩
              rintro e he
              rcases List.mem_cons.mp he with rfl | he'
              · exact (by decide : isTranslationName "groups.json" = false)
              · exact hr e he'
            · rintro ⟨htf, hr⟩
              exact ⟨htf, fun e he => hr e (List.mem_cons_of_mem _ he)⟩
        · rw [if_neg h3]
          by_cases h4 : name = "global_context.txt"
          · subst h4
            rw [if_pos rfl]
            rw [ih _ hallr]
            constructor
            · rintro ⟨htf, hr⟩
              refine ⟨htf, ?_⟩
              rintro e he
              rcases List.mem_cons.mp he with rfl | he'
              · exact (by decide : isTranslationName "global_context.txt" = false)
              · exact hr e he'
            · rintro ⟨htf, hr⟩
              exact ⟨htf, fun e he => hr e (List.mem_cons_of_mem _ he)⟩
          · rw [if_neg h4]
            by_cases h5 : name = "reference_keys.json"
            · subst h5
              cases hp : parse text with
              | none =>
                exfalso
                have hsome := hall _ (List.mem_cons_self _ _)
                  (by decide : strEndsWith "reference_keys.json" ".json" = true)
                rw [hp] at hsome; simp at hsome
              | some j =>
                rw [if_pos rfl]
                show processLoop parse rest { acc with referenceKeys := j } = defaultUploadResult ↔ _
                rw [ih _ hallr]
                constructor
                · rintro ⟨htf, hr⟩
                  refine ⟨htf, ?_⟩
                  rintro e he
                  rcases List.mem_cons.mp he with rfl | he'
                  · exact (by decide : isTranslationName "reference_keys.json" = false)
                  · exact hr e he'
                · rintro ⟨htf, hr⟩
                  exact ⟨htf, fun e he => hr e (List.mem_cons_of_mem _ he)⟩
            · rw [if_neg h5]
              by_cases h6 : strEndsWith name ".json" = true
              · cases hp : parse text with
                | none =>
                  exfalso
                  have hsome := hall _ (List.mem_cons_self _ _) h6
                  rw [hp] at hsome; simp at hsome
                | some j =>
                  rw [if_pos h6]
                  show processLoop parse rest
                      { acc with translationFiles :=
                          acc.translationFiles ++ [⟨replaceFirstStr name ".json", j⟩] } =
                        defaultUploadResult ↔ _
                  rw [ih _ hallr]
                  constructor
                  · rintro ⟨htf, _⟩
                    exact absurd htf (by simp)
                  · rintro ⟨htf, hr⟩
                    exfalso
                    have hh := hr _ (List.mem_cons_self _ _)
                    have htr : isTranslationName name = true := by
                      simp [isTranslationName, h6, h1, h2, h3, h5]
                    rw [htr] at hh
                    simp at hh
              · rw [if_neg h6]
                rw [ih _ hallr]
                constructor
                · rintro ⟨htf, hr⟩
                  refine ⟨htf, ?_⟩
                  rintro e he
                  rcases List.mem_cons.mp he with rfl | he'
                  · have h6f : strEndsWith name ".json" = false := by simpa using h6
                    simp [isTranslationName, h6f]
                  · exact hr e he'
                · rintro ⟨htf, hr⟩
                  exact ⟨htf, fun e he => hr e (List.mem_cons_of_mem _ he)⟩

/-- Claim C2 (amended): a JSON parse failure in any uploaded file whose name
ends in `.json` — the optional sidecars such as `context.json` included —
aborts the whole import and delivers `defaultResult`; and when every such
file parses, `defaultResult` is delivered exactly when the batch contains no
translation `.json` file. -/
theorem processFiles_abort_semantics (parse : String → Option Json)
    (files : List (String × String)) :
    ((∃ e ∈ files, strEndsWith e.1 ".json" = true ∧ parse e.2 = none) →
      processFiles parse files = defaultUploadResult) ∧
    ((∀ e ∈ files, strEndsWith e.1 ".json" = true → (parse e.2).isSome) →
      (processFiles parse files = defaultUploadResult ↔
        ∀ e ∈ files, isTranslationName e.1 = false)) := by
  constructor
  · intro hex
    exact processLoop_abort parse files defaultUploadResult hex
  · intro hall
    rw [processFiles, processLoop_success parse files defaultUploadResult hall]
    simp [defaultUploadResult]

/-- Claim C2 (counterexample): a batch with a valid `en.json` and an invalid
`context.json` yields the empty `defaultResult`, not a populated result —
the sidecar parse failure aborts the import even though a translation file
parsed successfully. -/
theorem processFiles_sidecar_abort_counterexample :
    demoParse "OBJ" = some (Json.obj [("a", Json.str "x")]) ∧
    demoParse "BAD" = none ∧
    processFiles demoParse [("en.json", "OBJ"), ("context.json", "BAD")] =
      defaultUploadResult ∧
    (processFiles demoParse [("en.json", "OBJ"), ("context.json", "BAD")]).translationFiles = [] ∧
    (processFiles demoParse [("en.json", "OBJ")]).translationFiles =
      [⟨"en", Json.obj [("a", Json.str "x")]⟩] :=
  ⟨rfl, rfl, rfl, rfl, rfl⟩

theorem processFiles_abort_semantics_witness :
    processFiles demoParse [("en.json", "OBJ"), ("context.json", "BAD")] =
      defaultUploadResult ∧
    (processFiles demoParse [("en.json", "OBJ")] = defaultUploadResult ↔
      ∀ e ∈ [(("en.json" : String), ("OBJ" : String))], isTranslationName e.1 = false) :=
  ⟨(processFiles_abort_semantics demoParse _).1
      ⟨("context.json", "BAD"), by decide, by decide, rfl⟩,
    (processFiles_abort_semantics demoParse _).2 (by decide)⟩

theorem chunksGo_congr {α : Type} :
    ∀ (fuel fuel' : Nat) (l : List α), l.length ≤ fuel → l.length ≤ fuel' →
      chunksGo fuel l = chunksGo fuel' l := by
  intro fuel
  induction fuel with
  | zero =>
    intro fuel' l h _
    have : l = [] := List.eq_nil_of_length_eq_zero (Nat.le_zero.mp h)
    subst this
    cases fuel' <;> rfl
  | succ fuel ih =>
    intro fuel' l h h'
    cases l with
    | nil => cases fuel' <;> rfl
    | cons x xs =>
      cases fuel' with
      | zero => simp at h'
      | succ fuel' =>
        simp only [chunksGo]
        have hlen : (xs.drop 9).length ≤ fuel := by
          simp only [List.length_drop]
          simp only [List.length_cons] at h
          omega
        have hlen' : (xs.drop 9).length ≤ fuel' := by
          simp only [List.length_drop]
          simp only [List.length_cons] at h'
          omega
        rw [ih fuel' _ hlen hlen']

theorem chunks10_cons {α : Type} (x : α) (xs : List α) :
    chunks10 (x :: xs) = (x :: xs.take 9) :: chunks10 (xs.drop 9) := by
  simp only [chunks10, List.length_cons, chunksGo]
  rw [chunksGo_congr xs.length (xs.drop 9).length (xs.drop 9)
    (by simp [List.length_drop]) le_rfl]

theorem chunksGo_flatten {α : Type} :
    ∀ (fuel : Nat) (l : List α), l.length ≤ fuel →
      (chunksGo fuel l).flatten = l := by
  intro fuel
  induction fuel with
  | zero =>
    intro l h
    have : l = [] := List.eq_nil_of_length_eq_zero (Nat.le_zero.mp h)
    subst this; rfl
  | succ fuel ih =>
    intro l h
    cases l with
    | nil => rfl
    | cons x xs =>
      simp only [chunksGo, List.flatten_cons]
      rw [ih (xs.drop 9) (by simp only [List.length_drop]; simp only [List.length_cons] at h; omega)]
      simp [List.take_append_drop]

theorem chunks10_flatten {α : Type} (l : List α) : (chunks10 l).flatten = l :=
  chunksGo_flatten l.length l le_rfl

theorem chunksGo_mem_shape {α : Type} :
    ∀ (fuel : Nat) (l : List α) (c : List α), c ∈ chunksGo fuel l →
      c ≠ [] ∧ c.length ≤ 10 := by
  intro fuel
  induction fuel with
  | zero =>
    intro l c h
    cases l <;> simp [chunksGo] at h
  | succ fuel ih =>
    intro l c h
    cases l with
    | nil => simp [chunksGo] at h
    | cons x xs =>
      simp only [chunksGo, List.mem_cons] at h
      rcases h with rfl | h
      · refine ⟨by simp, ?_⟩
        simp only [List.length_cons, List.length_take]
        omega
      · exact ih _ _ h

theorem chunks10_mem_shape {α : Type} {l : List α} {c : List α}
    (h : c ∈ chunks10 l) : c ≠ [] ∧ c.length ≤ 10 :=
  chunksGo_mem_shape l.length l c h

theorem bulkLoop_no_quota
    (call : List BulkKeyItem → Except String (Option (List BulkSuggestion))) :
    ∀ (chunks : List (List BulkKeyItem)) (processed total : Nat)
      (acc : List BulkSuggestion) (evs : List BulkEvent),
      (∀ c ∈ chunks, ∀ e, call c = Except.error e → quotaFlagged e = false) →
      bulkLoop call chunks processed total acc evs =
        (Except.ok (acc ++ chunks.flatMap (chunkSugs call)),
          evs ++ specBulkTraceAux chunks processed total) := by
  intro chunks
  induction chunks with
  | nil =>
    intro processed total acc evs _
    simp [bulkLoop, specBulkTraceAux]
  | cons c rest ih =>
    intro processed total acc evs hq
    have hqr : ∀ c' ∈ rest, ∀ e, call c' = Except.error e → quotaFlagged e = false :=
      fun c' h => hq c' (List.mem_cons_of_mem _ h)
    simp only [bulkLoop]
    cases hc : call c with
    | error e =>
      have hf : quotaFlagged e = false := hq c (List.mem_cons_self _ _) e hc
      rw [ih _ _ _ _ hqr]
      by_cases hre : rest.isEmpty <;>
        simp [hf, chunkSugs, hc, specBulkTraceAux, hre, List.append_assoc]
    | ok osugs =>
      cases osugs with
      | none =>
        rw [ih _ _ _ _ hqr]
        by_cases hre : rest.isEmpty <;>
          simp [chunkSugs, hc, specBulkTraceAux, hre, List.append_assoc]
      | some sugs =>
        cases rest with
        | nil => simp [bulkLoop, chunkSugs, hc, specBulkTraceAux]
        | cons r rs =>
          simp only [ih _ _ _ _ hqr]
          simp [chunkSugs, hc, specBulkTraceAux, List.append_assoc]

theorem nodup_flatten_owner {α : Type} :
    ∀ (L : List (List α)), (L.flatten).Nodup →
      ∀ {a : α} {c c' : List α}, c ∈ L → c' ∈ L → a ∈ c → a ∈ c' → c = c' := by
  intro L
  induction L with
  | nil => intro _ a c c' hc; simp at hc
  | cons x L ih =>
    intro hnd a c c' hc hc' ha ha'
    rw [List.flatten_cons, List.nodup_append] at hnd
    obtain ⟨hx, hL, hdisj⟩ := hnd
    rcases List.mem_cons.mp hc with rfl | hcL
    · rcases List.mem_cons.mp hc' with rfl | hcL'
      · rfl
      · exact absurd (List.mem_flatten.mpr ⟨c', hcL', ha'⟩) (hdisj ha)
    · rcases List.mem_cons.mp hc' with rfl | hcL'
      · exact absurd (List.mem_flatten.mpr ⟨c, hcL, ha⟩) (hdisj ha')
      · exact ih hL hcL hcL' ha ha'

/-- Claim C7 (amended): as long as no chunk fails with a quota-flagged
error (`RESOURCE_EXHAUSTED`/`429` — such a failure re-throws and aborts the
run), `bulkTranslateKeys` processes the keys in consecutive chunks of at
most ten in input order, issuing exactly one request per chunk with no
retry, reporting progress after each chunk with `current` equal to the
number of keys consumed and `total` equal to the input length, and waiting
a fixed 1000 ms delay between consecutive chunks and none after the last —
the trace the claim describes. -/
theorem bulkTranslateKeys_chunking_trace
    (call : List BulkKeyItem → Except String (Option (List BulkSuggestion)))
    (keys : List BulkKeyItem)
    (hq : ∀ c ∈ chunks10 keys, ∀ e, call c = Except.error e → quotaFlagged e = false) :
    (bulkTranslateKeys call keys).snd = specBulkTrace keys ∧
    (chunks10 keys).flatten = keys ∧
    (∀ c ∈ chunks10 keys, c ≠ [] ∧ c.length ≤ 10) := by
  refine ⟨?_, chunks10_flatten keys, fun c hc => chunks10_mem_shape hc⟩
  rw [bulkTranslateKeys, bulkLoop_no_quota call _ _ _ _ _ hq]
  simp [specBulkTrace]

/-- Claim C3 (amended): as long as no failing chunk's error is
quota-flagged, no exception escapes `bulkTranslateKeys`: the result is the
concatenation of the successful chunks' suggestions in order, and — when
each successful chunk answers exactly its own keys and the input keys are
distinct — every key of a failed chunk is absent from the returned
suggestions while all other chunks' suggestions are retained. -/
theorem bulkTranslateKeys_partial_failure
    (call : List BulkKeyItem → Except String (Option (List BulkSuggestion)))
    (keys : List BulkKeyItem)
    (hq : ∀ c ∈ chunks10 keys, ∀ e, call c = Except.error e → quotaFlagged e = false)
    (hexact : ∀ c ∈ chunks10 keys, ∀ l, call c = Except.ok (some l) →
      l.map BulkSuggestion.key = c.map BulkKeyItem.key)
    (hnodup : (keys.map BulkKeyItem.key).Nodup) :
    (bulkTranslateKeys call keys).fst =
      Except.ok ((chunks10 keys).flatMap (chunkSugs call)) ∧
    ∀ c ∈ chunks10 keys, (∃ e, call c = Except.error e) →
      ∀ s ∈ (chunks10 keys).flatMap (chunkSugs call),
        s.key ∉ c.map BulkKeyItem.key := by
  constructor
  · rw [bulkTranslateKeys, bulkLoop_no_quota call _ _ _ _ _ hq]
    simp
  · rintro c hc ⟨e, he⟩ s hs hkey
    rw [List.mem_flatMap] at hs
    obtain ⟨c', hc', hsc'⟩ := hs
    cases hcall : call c' with
    | error e' => simp [chunkSugs, hcall] at hsc'
    | ok o =>
      cases o with
      | none => simp [chunkSugs, hcall] at hsc'
      | some l =>
        rw [show chunkSugs call c' = l by simp [chunkSugs, hcall]] at hsc'
        have hkeys := hexact c' hc' l hcall
        have hk' : s.key ∈ c'.map BulkKeyItem.key :=
          hkeys ▸ List.mem_map_of_mem _ hsc'
        obtain ⟨k, hkc, hkk⟩ := List.mem_map.mp hkey
        obtain ⟨k', hkc', hkk'⟩ := List.mem_map.mp hk'
        have hflat : (chunks10 keys).flatten = keys := chunks10_flatten keys
        have hnodupMap : ((chunks10 keys).flatten.map BulkKeyItem.key).Nodup := by
          rw [hflat]; exact hnodup
        have hkeq : k = k' :=
          List.inj_on_of_nodup_map hnodupMap
            (List.mem_flatten.mpr ⟨c, hc, hkc⟩)
            (List.mem_flatten.mpr ⟨c', hc', hkc'⟩)
            (by rw [hkk, hkk'])
        have hcc : c = c' :=
          nodup_flatten_owner _ (hnodupMap.of_map _) hc hc' hkc (hkeq ▸ hkc')
        rw [hcc, hcall] at he
        exact Except.noConfusion he

/-- Claim C3 (counterexample): when a chunk fails with a quota-flagged
error (`429`), `bulkTranslateKeys` re-throws a fresh error — an exception
escapes the batch boundary, the result is not a suggestion list, and the
remaining chunks are never processed. -/
theorem bulk_quota_exception_counterexample :
    (bulkTranslateKeys demoQuotaCall demoBulkKeys).fst =
      Except.error (quotaAbortMsg 10) ∧
    (bulkTranslateKeys demoQuotaCall demoBulkKeys).snd =
      [BulkEvent.request (demoBulkKeys.take 10)] :=
  ⟨rfl, by decide⟩

/-- Claim C7 (counterexample): with eleven keys and a quota-flagged failure
on the first chunk, the trace stops after the first request: the second
chunk gets no request, no progress callback fires and no delay runs, so the
trace the claim describes is not produced. -/
theorem bulk_trace_quota_abort_counterexample :
    (bulkTranslateKeys demoQuotaCall demoBulkKeys).snd =
      [BulkEvent.request (demoBulkKeys.take 10)] ∧
    (bulkTranslateKeys demoQuotaCall demoBulkKeys).snd ≠ specBulkTrace demoBulkKeys :=
  ⟨by decide, by decide⟩

theorem bulkTranslateKeys_chunking_trace_witness :
    (bulkTranslateKeys demoOkCall demoBulkKeys).snd = specBulkTrace demoBulkKeys ∧
    (chunks10 demoBulkKeys).flatten = demoBulkKeys ∧
    (∀ c ∈ chunks10 demoBulkKeys, c ≠ [] ∧ c.length ≤ 10) :=
  bulkTranslateKeys_chunking_trace demoOkCall demoBulkKeys
    (by intro c _ e he; exact Except.noConfusion he)

theorem bulkTranslateKeys_partial_failure_witness :
    (bulkTranslateKeys demoMixedCall demoBulkKeys).fst =
      Except.ok ((chunks10 demoBulkKeys).flatMap (chunkSugs demoMixedCall)) ∧
    ∀ c ∈ chunks10 demoBulkKeys, (∃ e, demoMixedCall c = Except.error e) →
      ∀ s ∈ (chunks10 demoBulkKeys).flatMap (chunkSugs demoMixedCall),
        s.key ∉ c.map BulkKeyItem.key :=
  bulkTranslateKeys_partial_failure demoMixedCall demoBulkKeys
    (by
      intro c _ e he
      by_cases h : c.length = 1
      · rw [show demoMixedCall c = Except.ok (some (c.map (fun k => ⟨k.key, "s"⟩)))
            from by simp [demoMixedCall, h]] at he
        exact Except.noConfusion he
      · rw [show demoMixedCall c = Except.error "boom"
            from by simp [demoMixedCall, h]] at he
        injection he with h2
        rw [← h2]
        decide)
    (by
      intro c _ l hl
      by_cases h : c.length = 1
      · rw [show demoMixedCall c = Except.ok (some (c.map (fun k => ⟨k.key, "s"⟩)))
            from by simp [demoMixedCall, h]] at hl
        injection hl with h2
        injection h2 with h3
        rw [← h3, List.map_map]
        rfl
      · rw [show demoMixedCall c = Except.error "boom"
            from by simp [demoMixedCall, h]] at hl
        exact Except.noConfusion hl)
    (by decide)

/-- Claim C8: every failure of the LLM call or of response parsing is
rejected as exactly one of the four fixed messages, selected by testing the
error text for `PERMISSION_DENIED`/`403` first, then
`RESOURCE_EXHAUSTED`/`429`, then `api key not valid` case-insensitively,
with the unknown-error message as fallback; the original exception never
reaches the caller. -/
theorem analyzeTranslations_fixed_error_messages
    (response : Except String String)
    (parse : String → Except String AIAnalysisResult) :
    (∀ e, response = Except.error e →
      analyzeTranslations response parse = Except.error (mapAnalysisError e)) ∧
    (∀ text e, response = Except.ok text → parse text = Except.error e →
      analyzeTranslations response parse = Except.error (mapAnalysisError e)) ∧
    (∀ e, mapAnalysisError e = permissionDeniedMsg ∨
      mapAnalysisError e = quotaExceededMsg ∨
      mapAnalysisError e = invalidKeyMsg ∨
      mapAnalysisError e = unknownErrorMsg) ∧
    (∀ e, (containsStr e "PERMISSION_DENIED" || containsStr e "403") = true →
      mapAnalysisError e = permissionDeniedMsg) ∧
    (∀ e, (containsStr e "PERMISSION_DENIED" || containsStr e "403") = false →
      (containsStr e "RESOURCE_EXHAUSTED" || containsStr e "429") = true →
      mapAnalysisError e = quotaExceededMsg) ∧
    (∀ e, (containsStr e "PERMISSION_DENIED" || containsStr e "403") = false →
      (containsStr e "RESOURCE_EXHAUSTED" || containsStr e "429") = false →
      containsStr (lowerStr e) "api key not valid" = true →
      mapAnalysisError e = invalidKeyMsg) ∧
    (∀ e, (containsStr e "PERMISSION_DENIED" || containsStr e "403") = false →
      (containsStr e "RESOURCE_EXHAUSTED" || containsStr e "429") = false →
      containsStr (lowerStr e) "api key not valid" = false →
      mapAnalysisError e = unknownErrorMsg) := by
  refine ⟨?_, ?_, ?_, ?_, ?_, ?_, ?_⟩
  · intro e h; rw [h]; rfl
  · intro text e h hp
    rw [h]
    simp [analyzeTranslations, hp]
  · intro e
    unfold mapAnalysisError
    split_ifs <;> simp
  · intro e h
    simp [mapAnalysisError, h]
  · intro e h1 h2
    simp [mapAnalysisError, h1, h2]
  · intro e h1 h2 h3
    simp [mapAnalysisError, h1, h2, h3]
  · intro e h1 h2 h3
    simp [mapAnalysisError, h1, h2, h3]

theorem analyzeTranslations_fixed_error_messages_witness :
    analyzeTranslations (Except.error "403 oops") demoParseAI =
      Except.error (mapAnalysisError "403 oops") ∧
    mapAnalysisError "403 oops" = permissionDeniedMsg ∧
    analyzeTranslations (Except.ok "garbage") demoParseAI =
      Except.error (mapAnalysisError "SyntaxError: Unexpected token") ∧
    mapAnalysisError "SyntaxError: Unexpected token" = unknownErrorMsg :=
  ⟨(analyzeTranslations_fixed_error_messages _ demoParseAI).1 _ rfl,
    (analyzeTranslations_fixed_error_messages (Except.error "403 oops") demoParseAI).2.2.2.1
      "403 oops" (by decide),
    (analyzeTranslations_fixed_error_messages _ demoParseAI).2.1
      "garbage" "SyntaxError: Unexpected token" rfl rfl,
    (analyzeTranslations_fixed_error_messages (Except.ok "garbage") demoParseAI).2.2.2.2.2.2
      "SyntaxError: Unexpected token" (by decide) (by decide) (by decide)⟩

/-- Claim C6 (counterexample): "republic" contains no `pl` substring and is
not selected by any heuristic; "plane" is selected by the substring modules
but rejected by the exact-match modules (`BulkTranslateView`, the
`aiService` variant in `types.ts`) — the heuristic is not uniform across
components and the claim's example is wrong. -/
theorem polish_detection_counterexample :
    polishFileFinderSub "republic" = false ∧
    polishFileFinderSub "plane" = true ∧
    polishFileFinderExact "plane" = false ∧
    (findPolishFileSub demoPlaneFiles).map TranslationFile.name = some "plane" ∧
    findPolishFileExact demoPlaneFiles = none :=
  ⟨by decide, by decide, by decide, rfl, rfl⟩

/-- Claim C6 (amended): part_001's `aiService`, `GroupsView`,
`GroupEditorForm`, `TranslationKeyList` and `TranslationAnalysisCard`
select the first file whose lowercased name contains `pl` or `polish`,
while `BulkTranslateView` (first variant) and the `aiService` variant in
`types.ts` require the lowercased name to equal `pl` or `polish`; every
exact match is also a substring match, but names such as "plane" split the
two heuristics and "republic" matches neither. -/
theorem polish_detection_heuristics :
    (∀ n, polishFileFinderExact n = true → polishFileFinderSub n = true) ∧
    (∀ (fs : List TranslationFile) (f : TranslationFile),
      findPolishFileSub fs = some f → f ∈ fs ∧ polishFileFinderSub f.name = true) ∧
    (∀ (fs : List TranslationFile) (f : TranslationFile),
      findPolishFileExact fs = some f → f ∈ fs ∧ polishFileFinderExact f.name = true) ∧
    polishFileFinderSub "plane" = true ∧
    polishFileFinderExact "plane" = false ∧
    polishFileFinderSub "republic" = false := by
  refine ⟨?_, ?_, ?_, by decide, by decide, by decide⟩
  · intro n h
    rcases (by simpa [polishFileFinderExact] using h :
        lowerStr n = "pl" ∨ lowerStr n = "polish") with he | he
    · unfold polishFileFinderSub
      rw [he]
      decide
    · unfold polishFileFinderSub
      rw [he]
      decide
  · intro fs f h
    unfold findPolishFileSub at h
    have hp := List.find?_some h
    exact ⟨List.mem_of_find?_eq_some h, hp⟩
  · intro fs f h
    unfold findPolishFileExact at h
    have hp := List.find?_some h
    exact ⟨List.mem_of_find?_eq_some h, hp⟩

theorem polish_detection_heuristics_witness :
    polishFileFinderSub "PL" = true ∧
    (⟨"plane", Json.obj []⟩ : TranslationFile) ∈ demoPlaneFiles ∧
    polishFileFinderSub "plane" = true :=
  ⟨polish_detection_heuristics.1 "PL" (by decide),
    (polish_detection_heuristics.2.1 demoPlaneFiles ⟨"plane", Json.obj []⟩ rfl).1,
    (polish_detection_heuristics.2.1 demoPlaneFiles ⟨"plane", Json.obj []⟩ rfl).2⟩

/-- Claim C9 (counterexample): select key `a`, star it as a reference, then
flip the select-all checkbox while the search shows only `b`, type a name
and save: the saved group has `keys = [b]` and `referenceKeys = [a]` — the
reference set is not a subset of the selected keys, because the select-all
handler replaces `selectedKeys` without pruning `referenceKeys` and
`handleSaveGroup` copies both sets unchecked. -/
theorem group_reference_subset_counterexample :
    saveGroup "1" demoFormReached = some demoSavedGroup ∧
    "a" ∈ demoSavedGroup.referenceKeys ∧
    "a" ∉ demoSavedGroup.keys ∧
    ¬ demoSavedGroup.referenceKeys ⊆ demoSavedGroup.keys :=
  ⟨rfl, by decide, by decide,
    fun hsub => (by decide : ("a" : String) ∉ demoSavedGroup.keys)
      (hsub (by decide : ("a" : String) ∈ demoSavedGroup.referenceKeys))⟩

/-- Claim C9 (amended): the two toggle handlers do preserve the invariant
that every reference key is selected — `toggleReferenceKey` stars a key
only when it is selected and `toggleKeySelection` removes a deselected key
from both sets — and a save from any state satisfying the invariant yields
a group with `referenceKeys ⊆ keys`; the invariant itself can however be
broken by the select-all checkbox, so it does not hold of every saved
group. -/
theorem group_form_toggle_invariant :
    (∀ (s : GroupFormState) (k : String), formInv s → formInv (toggleKeySelection k s)) ∧
    (∀ (s : GroupFormState) (k : String), formInv s → formInv (toggleReferenceKey k s)) ∧
    (∀ (s : GroupFormState) (gid : String) (g : TranslationGroup),
      formInv s → saveGroup gid s = some g → g.referenceKeys ⊆ g.keys) := by
  refine ⟨?_, ?_, ?_⟩
  · intro s k hinv
    unfold toggleKeySelection
    by_cases h : s.selectedKeys.contains k
    · rw [if_pos h]
      intro x hx
      simp only [formInv, jsSetDelete, List.mem_filter, Bool.not_eq_true',
        beq_eq_false_iff_ne, ne_eq] at hx ⊢
      exact ⟨hinv hx.1, hx.2⟩
    · rw [if_neg h]
      intro x hx
      simp only [formInv] at hinv
      simp only [jsSetAdd]
      by_cases hk : s.selectedKeys.contains k
      · rw [if_pos hk]; exact hinv hx
      · rw [if_neg hk]; exact List.mem_append_left _ (hinv hx)
  · intro s k hinv
    unfold toggleReferenceKey
    by_cases h : s.referenceKeys.contains k
    · rw [if_pos h]
      intro x hx
      simp only [jsSetDelete, List.mem_filter] at hx
      exact hinv hx.1
    · rw [if_neg h]
      by_cases h2 : s.selectedKeys.contains k
      · rw [if_pos h2]
        intro x hx
        simp only [jsSetAdd] at hx
        by_cases h3 : s.referenceKeys.contains k
        · rw [if_pos h3] at hx; exact hinv hx
        · rw [if_neg h3] at hx
          rcases List.mem_append.mp hx with hx | hx
          · exact hinv hx
          · have : x = k := by simpa using hx
            subst this
            simpa using h2
      · rw [if_neg h2]
        exact hinv
  · intro s gid g hinv hsave
    unfold saveGroup at hsave
    split_ifs at hsave
    injection hsave with h
    rw [← h]
    exact hinv

theorem group_form_toggle_invariant_witness :
    formInv (toggleKeySelection "b" ⟨"g", "", "", ["a"], ["a"]⟩) ∧
    formInv (toggleReferenceKey "a" ⟨"g", "", "", ["a"], ["a"]⟩) ∧
    (⟨"1", "g", "", ["a"], ["a"]⟩ : TranslationGroup).referenceKeys ⊆
      (⟨"1", "g", "", ["a"], ["a"]⟩ : TranslationGroup).keys :=
  ⟨group_form_toggle_invariant.1 ⟨"g", "", "", ["a"], ["a"]⟩ "b" (List.Subset.refl _),
    group_form_toggle_invariant.2.1 ⟨"g", "", "", ["a"], ["a"]⟩ "a" (List.Subset.refl _),
    group_form_toggle_invariant.2.2 ⟨"g", "", "", ["a"], ["a"]⟩ "1"
      ⟨"1", "g", "", ["a"], ["a"]⟩ (List.Subset.refl _) rfl⟩
